import Mathlib

/-!
Verification of the task-dependency scheduling core of the resource
allocation backend (`backend/main.py`).

The embedding translates the three algorithms of the `ALGORITHMS` section
(`has_cycle`, `topological_sort`, `allocate_resources`) together with the
two endpoints whose logic the claims mention (`create_dependency`,
`auto_allocate`).  Tasks, dependency edges and resources are modelled as
plain lists, mirroring the rows the SQLAlchemy queries return for one
project; `datetime` values are modelled as integer minutes, since the code
only ever adds `timedelta(minutes=...)` to them.  The recursive DFS and the
Kahn loop are given a fuel argument so that they are structurally
recursive; the fuel chosen in `has_cycle` and `kahnIds` is proved large
enough (see the adequacy lemmas below), so the fuelled functions compute
exactly what the Python recursion computes.
-/

namespace RA

/-- Resource kinds, from the `ResourceType` enum. -/
inductive ResourceType where
  | employee
  | equipment
deriving DecidableEq

/-- A task row, with the fields the scheduling algorithms read. -/
structure TaskE where
  id : Nat
  priority : Int
  estimated_duration : Int
  required_skills : List String
deriving DecidableEq

/-- A resource row, with the fields the allocator reads.
(`cost_per_hour` is never read by the algorithms and is omitted.) -/
structure ResourceE where
  id : Nat
  rtype : ResourceType
  skills : List String
  available : Bool
deriving DecidableEq

/-- A `TaskAllocation` row as produced by `allocate_resources`. -/
structure AllocE where
  task_id : Nat
  resource_id : Nat
  scheduled_start : Int
  scheduled_end : Int
deriving DecidableEq

/-- A dependency edge `(predecessor_task_id, successor_task_id)`. -/
abbrev Edge := Nat × Nat

/-- The ids of the project's tasks, in query order. -/
def taskIds (tasks : List TaskE) : List Nat := tasks.map TaskE.id

/-- Successors of `u` in edge order: the adjacency list that
`graph[dep.predecessor_task_id].append(dep.successor_task_id)` builds. -/
def succList (edges : List Edge) (u : Nat) : List Nat :=
  (edges.filter (fun e => e.1 == u)).map Prod.snd

/-- `graph.get(node, [])`: the adjacency dict has exactly the task ids as
keys, and unknown nodes default to the empty list. -/
def graphSucc (tasks : List TaskE) (edges : List Edge) (u : Nat) : List Nat :=
  if u ∈ taskIds tasks then succList edges u else []

/-- One edge of the dependency relation. -/
def EdgeRel (edges : List Edge) (u v : Nat) : Prop := (u, v) ∈ edges

/-- The dependency edges contain a directed cycle: some node reaches
itself by a nonempty path of edges. -/
def Cyclic (edges : List Edge) : Prop :=
  ∃ v, Relation.TransGen (EdgeRel edges) v v

/-- A well-formed project graph: every edge joins two tasks of the project
(enforced by the query join and by `create_dependency`), and task ids are
unique (primary keys). -/
def WFGraph (tasks : List TaskE) (edges : List Edge) : Prop :=
  (∀ e ∈ edges, e.1 ∈ taskIds tasks ∧ e.2 ∈ taskIds tasks) ∧ (taskIds tasks).Nodup

/-- The recursive `dfs` of `has_cycle`, with the shared mutable state made
explicit: `stack` is the recursion stack (`rec_stack`), `visited` the
visited set, and the traversal position is the list of still-unprocessed
neighbours of the node on top of the stack.  Each call step consumes one
unit of fuel; `has_cycle` passes enough fuel for the whole traversal. -/
def dfsVisit (g : Nat → List Nat) : Nat → List Nat → List Nat → List Nat → Bool × List Nat
  | 0, _, _, visited => (false, visited)
  | _ + 1, [], _, visited => (false, visited)
  | fuel + 1, n :: rest, stack, visited =>
    if n ∈ visited then
      if n ∈ stack then (true, visited)
      else dfsVisit g fuel rest stack visited
    else
      match dfsVisit g fuel (g n) (n :: stack) (n :: visited) with
      | (true, v) => (true, v)
      | (false, v) => dfsVisit g fuel rest stack v

/-- The outer loop of `has_cycle`: start a DFS from every not yet visited
task id, threading the visited set through. -/
def hasCycleGo (g : Nat → List Nat) (fuel : Nat) : List Nat → List Nat → Bool
  | [], _ => false
  | t :: ts, visited =>
    if t ∈ visited then hasCycleGo g fuel ts visited
    else
      match dfsVisit g fuel (g t) [t] (t :: visited) with
      | (true, _) => true
      | (false, v) => hasCycleGo g fuel ts v

/-- `has_cycle(db, project_id)`: DFS cycle detection over the project's
task graph. -/
def has_cycle (tasks : List TaskE) (edges : List Edge) : Bool :=
  hasCycleGo (graphSucc tasks edges) (tasks.length + edges.length + 1) (taskIds tasks) []

/-- The initial in-degree of `v`: the number of dependency edges whose
successor is `v` (with multiplicity), as the `in_degree` dict holds it. -/
def indeg0 (edges : List Edge) (v : Nat) : Int :=
  ((edges.filter (fun e => e.2 == v)).length : Int)

/-- `task_map[tid].priority`: the priority of the task with id `tid`. -/
def prioOf (tasks : List TaskE) (tid : Nat) : Int :=
  ((tasks.find? (fun t => t.id == tid)).map TaskE.priority).getD 0

/-- `queue.sort(key=lambda tid: -task_map[tid].priority)`: a stable sort
by descending priority.  A stable sort is extensionally determined by its
comparison, so insertion sort computes exactly what Python's stable
`list.sort` computes here. -/
def sortQueue (prio : Nat → Int) (queue : List Nat) : List Nat :=
  queue.insertionSort (fun a b => prio b ≤ prio a)

/-- The inner `for neighbor in graph[current]` loop of Kahn's algorithm:
decrement each neighbour's in-degree and append it to the queue when the
decremented value is zero. -/
def stepNeighbors : List Nat → List Nat → (Nat → Int) → List Nat × (Nat → Int)
  | [], queue, indeg => (queue, indeg)
  | n :: rest, queue, indeg =>
    if indeg n - 1 = 0 then
      stepNeighbors rest (queue ++ [n]) (fun x => if x = n then indeg x - 1 else indeg x)
    else stepNeighbors rest queue (fun x => if x = n then indeg x - 1 else indeg x)

/-- The `while queue:` loop of `topological_sort`.  Each iteration sorts
the queue by descending priority, pops the head, appends it to the output
and processes its neighbours.  One unit of fuel is one iteration; the loop
appends one task per iteration, so the fuel passed by `kahnIds` never runs
out before the queue is empty. -/
def kahnLoop (g : Nat → List Nat) (prio : Nat → Int) :
    Nat → List Nat → (Nat → Int) → List Nat → List Nat
  | 0, _, _, acc => acc
  | fuel + 1, queue, indeg, acc =>
    match sortQueue prio queue with
    | [] => acc
    | c :: q' =>
      kahnLoop g prio fuel (stepNeighbors (g c) q' indeg).1
        (stepNeighbors (g c) q' indeg).2 (acc ++ [c])

/-- `topological_sort` at the level of task ids: Kahn's algorithm seeded
with the zero-in-degree task ids in task order. -/
def kahnIds (tasks : List TaskE) (edges : List Edge) : List Nat :=
  kahnLoop (graphSucc tasks edges) (prioOf tasks) tasks.length
    ((taskIds tasks).filter (fun v => indeg0 edges v == 0)) (indeg0 edges) []

/-- `topological_sort(db, project_id)`: the sorted task objects
(`sorted_tasks.append(task_map[current])`). -/
def topological_sort (tasks : List TaskE) (edges : List Edge) : List TaskE :=
  (kahnIds tasks edges).filterMap (fun tid => tasks.find? (fun t => t.id == tid))

/-- `db.query(Resource).filter(Resource.available == True).all()`. -/
def availResources (resources : List ResourceE) : List ResourceE :=
  resources.filter (fun r => r.available)

/-- The per-task resource selection of `allocate_resources`: the first
available resource of type `EMPLOYEE` whose skill set contains every
required skill; if none matches, fall back to the first available
resource (`resources[0]`, passed as `first`). -/
def chooseResource (first : ResourceE) (avail : List ResourceE) (req : List String) : ResourceE :=
  match avail.find?
      (fun r => r.rtype == ResourceType.employee && req.all (fun s => r.skills.contains s)) with
  | some r => r
  | none => first

/-- The `for task in sorted_tasks:` loop of `allocate_resources`: schedule
each task back to back on the shared clock, choosing a resource per task. -/
def allocGo (first : ResourceE) (avail : List ResourceE) : Int → List TaskE → List AllocE
  | _, [] => []
  | clock, t :: ts =>
    let r := chooseResource first avail t.required_skills
    let e := clock + t.estimated_duration
    ⟨t.id, r.id, clock, e⟩ :: allocGo first avail e ts

/-- `allocate_resources(db, project_id)`: sort the tasks, fail when no
resource is available, otherwise produce one allocation per sorted task,
starting at the current time `clock`. -/
def allocate_resources (tasks : List TaskE) (edges : List Edge) (resources : List ResourceE)
    (clock : Int) : Except String (List AllocE) :=
  match availResources resources with
  | [] => Except.error "No available resources"
  | r0 :: rs => Except.ok (allocGo r0 (r0 :: rs) clock (topological_sort tasks edges))

/-- The `auto_allocate` endpoint: reject cyclic projects, then allocate. -/
def auto_allocate (tasks : List TaskE) (edges : List Edge) (resources : List ResourceE)
    (clock : Int) : Except String (List AllocE) :=
  if has_cycle tasks edges then
    Except.error "Cannot allocate: project has circular dependencies"
  else allocate_resources tasks edges resources clock

/-- The `create_dependency` endpoint, with the stored edge list as the
state.  The code runs `db.add(new_dep); db.commit()` and only then calls
`has_cycle`; a SQLAlchemy `commit` ends the transaction, so the
`db.rollback()` in the cycle branch rolls back an empty transaction and
the inserted edge stays committed.  The returned list is therefore
`committed ++ [(pred, succ)]` in the error branch as well. -/
def create_dependency (tasks : List TaskE) (committed : List Edge) (pred succ : Nat) :
    Except String Unit × List Edge :=
  if pred ∈ taskIds tasks ∧ succ ∈ taskIds tasks then
    let committed' := committed ++ [(pred, succ)]
    if has_cycle tasks committed' then
      (Except.error "This dependency creates a cycle", committed')
    else (Except.ok (), committed')
  else (Except.error "One or both tasks not found", committed)

/-- `p` occurs strictly before `s` in `l`. -/
def appears_before (l : List Nat) (p s : Nat) : Prop :=
  ∃ l1 l2 l3, l = l1 ++ p :: l2 ++ s :: l3

/-- `p` occurs strictly before the first occurrence of `s` in `l`: the
transitive form of `appears_before` used inside the Kahn invariant. -/
def beforeFirst (l : List Nat) (p s : Nat) : Prop :=
  p ∈ l.takeWhile (fun x => x != s)

/-- The in-degree of `v` counting only edges whose predecessor has not
been emitted yet: the value `in_degree[v]` holds after the tasks in `acc`
have been popped. -/
def remInDeg (edges : List Edge) (acc : List Nat) (v : Nat) : Int :=
  ((edges.filter (fun e => e.2 == v && !(acc.contains e.1))).length : Int)

/-- Fuel measure for the DFS: total remaining work over the unvisited
task ids. -/
def dfsMeasure (g : Nat → List Nat) (tIds visited : List Nat) : Nat :=
  ((tIds.filter (fun n => !(visited.contains n))).map (fun n => (g n).length + 1)).sum

/-- The ready set of Kahn's algorithm: tasks not yet emitted, all of whose
unemitted predecessors are exhausted (remaining in-degree zero). -/
def isReady (tasks : List TaskE) (edges : List Edge) (acc : List Nat) (v : Nat) : Prop :=
  v ∈ taskIds tasks ∧ v ∉ acc ∧ remInDeg edges acc v = 0

/-! ### Basic lemmas about the graph representation -/

theorem mem_succList {edges : List Edge} {u v : Nat} :
    v ∈ succList edges u ↔ (u, v) ∈ edges := by
  constructor
  · intro h
    simp only [succList, List.mem_map, List.mem_filter] at h
    obtain ⟨e, ⟨he, hu⟩, hv⟩ := h
    cases e
    simp only [beq_iff_eq] at hu
    cases hu
    cases hv
    exact he
  · intro h
    simp only [succList, List.mem_map, List.mem_filter]
    exact ⟨(u, v), ⟨h, by simp⟩, rfl⟩

theorem mem_graphSucc {tasks : List TaskE} {edges : List Edge} {u v : Nat}
    (h : v ∈ graphSucc tasks edges u) : EdgeRel edges u v := by
  unfold graphSucc at h
  split at h
  · exact mem_succList.mp h
  · cases h

theorem mem_graphSucc_taskIds {tasks : List TaskE} {edges : List Edge}
    (hWF : WFGraph tasks edges) {u v : Nat} (h : v ∈ graphSucc tasks edges u) :
    v ∈ taskIds tasks :=
  (hWF.1 _ (mem_graphSucc h)).2

theorem edgeRel_mem_graphSucc {tasks : List TaskE} {edges : List Edge}
    (hWF : WFGraph tasks edges) {u v : Nat} (h : EdgeRel edges u v) :
    v ∈ graphSucc tasks edges u := by
  unfold graphSucc
  rw [if_pos (hWF.1 _ h).1]
  exact mem_succList.mpr h

theorem chain_reflTransGen {edges : List Edge} :
    ∀ {rest : List Nat} {h x : Nat},
      List.Chain' (fun a b => EdgeRel edges b a) (h :: rest) → x ∈ h :: rest →
      Relation.ReflTransGen (EdgeRel edges) x h := by
  intro rest
  induction rest with
  | nil =>
    intro h x _ hx
    rcases List.mem_singleton.mp hx with rfl
    exact Relation.ReflTransGen.refl
  | cons h2 rest2 ih =>
    intro h x hch hx
    rcases List.chain'_cons.mp hch with ⟨hrel, hch2⟩
    rcases List.mem_cons.mp hx with rfl | hx2
    · exact Relation.ReflTransGen.refl
    · exact (ih hch2 hx2).tail hrel

/-! ### DFS soundness: a `true` answer exhibits a cycle -/

theorem dfsVisit_true_cyclic {edges : List Edge} {g : Nat → List Nat}
    (Hg : ∀ m m', m' ∈ g m → EdgeRel edges m m') :
    ∀ fuel (ns : List Nat) (h : Nat) (rest visited : List Nat) (v : List Nat),
      List.Chain' (fun a b => EdgeRel edges b a) (h :: rest) →
      (∀ n ∈ ns, EdgeRel edges h n) →
      dfsVisit g fuel ns (h :: rest) visited = (true, v) → Cyclic edges := by
  intro fuel
  induction fuel with
  | zero =>
    intro ns h rest visited v _ _ heq
    simp [dfsVisit] at heq
  | succ fuel ih =>
    intro ns h rest visited v hch hns heq
    match ns with
    | [] => simp [dfsVisit] at heq
    | n :: restNs =>
      rw [dfsVisit] at heq
      by_cases hvis : n ∈ visited
      · rw [if_pos hvis] at heq
        by_cases hstk : n ∈ h :: rest
        · have hedge : EdgeRel edges h n := hns n (List.mem_cons_self _ _)
          have hreach : Relation.ReflTransGen (EdgeRel edges) n h :=
            chain_reflTransGen hch hstk
          exact ⟨n, Relation.TransGen.tail' hreach hedge⟩
        · rw [if_neg hstk] at heq
          exact ih restNs h rest visited v hch (fun m hm => hns m (List.mem_cons_of_mem _ hm)) heq
      · rw [if_neg hvis] at heq
        rcases hres : dfsVisit g fuel (g n) (n :: h :: rest) (n :: visited) with ⟨b, v'⟩
        rw [hres] at heq
        match b, heq with
        | true, heq =>
          have hch' : List.Chain' (fun a b => EdgeRel edges b a) (n :: h :: rest) :=
            List.chain'_cons.mpr ⟨hns n (List.mem_cons_self _ _), hch⟩
          exact ih (g n) n (h :: rest) (n :: visited) v' hch' (fun m hm => Hg n m hm) hres
        | false, heq =>
          exact ih restNs h rest v' v hch (fun m hm => hns m (List.mem_cons_of_mem _ hm)) heq

theorem hasCycleGo_true_cyclic {edges : List Edge} {g : Nat → List Nat}
    (Hg : ∀ m m', m' ∈ g m → EdgeRel edges m m') (fuel : Nat) :
    ∀ (ts visited : List Nat), hasCycleGo g fuel ts visited = true → Cyclic edges := by
  intro ts
  induction ts with
  | nil => intro visited heq; simp [hasCycleGo] at heq
  | cons t ts ih =>
    intro visited heq
    rw [hasCycleGo] at heq
    by_cases hvis : t ∈ visited
    · rw [if_pos hvis] at heq
      exact ih visited heq
    · rw [if_neg hvis] at heq
      rcases hres : dfsVisit g fuel (g t) [t] (t :: visited) with ⟨b, v'⟩
      rw [hres] at heq
      match b, heq with
      | true, _ =>
        exact dfsVisit_true_cyclic Hg fuel (g t) t [] (t :: visited) v'
          (List.chain'_singleton t) (fun m hm => Hg t m hm) hres
      | false, heq => exact ih v' heq

/-! ### DFS completeness: a `false` answer certifies acyclicity -/

theorem reflTransGen_closed {edges : List Edge} {P : Nat → Prop}
    (hP : ∀ u, P u → ∀ w, EdgeRel edges u w → P w) {a b : Nat}
    (hab : Relation.ReflTransGen (EdgeRel edges) a b) (ha : P a) : P b := by
  induction hab with
  | refl => exact ha
  | tail _ e ih => exact hP _ ih _ e

theorem dfsMeasure_cons {g : Nat → List Nat} {a : Nat} {l visited : List Nat} :
    dfsMeasure g (a :: l) visited =
      (if a ∈ visited then 0 else (g a).length + 1) + dfsMeasure g l visited := by
  by_cases h : a ∈ visited
  · simp [dfsMeasure, List.filter_cons, h]
  · simp [dfsMeasure, List.filter_cons, h]

theorem dfsMeasure_mono {g : Nat → List Nat} {visited visited' : List Nat}
    (hsub : ∀ x ∈ visited, x ∈ visited') :
    ∀ (l : List Nat), dfsMeasure g l visited' ≤ dfsMeasure g l visited := by
  intro l
  induction l with
  | nil => simp [dfsMeasure]
  | cons a l ih =>
    rw [dfsMeasure_cons, dfsMeasure_cons]
    have : (if a ∈ visited' then 0 else (g a).length + 1) ≤
        (if a ∈ visited then 0 else (g a).length + 1) := by
      by_cases h : a ∈ visited
      · simp [h, hsub a h]
      · split <;> omega
    omega

theorem dfsMeasure_drop {g : Nat → List Nat} {n : Nat} {visited : List Nat}
    (hnv : n ∉ visited) :
    ∀ (l : List Nat), n ∈ l →
      dfsMeasure g l (n :: visited) + ((g n).length + 1) ≤ dfsMeasure g l visited := by
  intro l
  induction l with
  | nil => intro h; cases h
  | cons a l ih =>
    intro hmem
    rw [dfsMeasure_cons, dfsMeasure_cons]
    have hmono : dfsMeasure g l (n :: visited) ≤ dfsMeasure g l visited :=
      dfsMeasure_mono (fun x hx => List.mem_cons_of_mem _ hx) l
    by_cases han : a = n
    · subst han
      have h1 : a ∈ a :: visited := List.mem_cons_self _ _
      rw [if_pos h1, if_neg hnv]
      omega
    · have hl : n ∈ l := by
        rcases List.mem_cons.mp hmem with h | h
        · exact absurd h.symm han
        · exact h
      have hcond : (a ∈ n :: visited) ↔ (a ∈ visited) := by
        constructor
        · intro h
          rcases List.mem_cons.mp h with h | h
          · exact absurd h han
          · exact h
        · intro h; exact List.mem_cons_of_mem _ h
      by_cases hav : a ∈ visited
      · rw [if_pos (hcond.mpr hav), if_pos hav]
        have := ih hl
        omega
      · rw [if_neg (fun hc => hav (hcond.mp hc)), if_neg hav]
        have := ih hl
        omega

/-- Popping the head of the stack after all its neighbours are processed
preserves the "finished nodes are closed and acyclic" invariant. -/
theorem dfsPop {edges : List Edge} {g : Nat → List Nat}
    (HgFull : ∀ m m', EdgeRel edges m m' → m' ∈ g m)
    (hd : Nat) (rest visited : List Nat)
    (I1 : ∀ x ∈ hd :: rest, x ∈ visited)
    (I2 : ∀ u, u ∈ visited → u ∉ hd :: rest → ∀ w, EdgeRel edges u w →
      w ∈ visited ∧ w ∉ hd :: rest)
    (I3 : ∀ u, u ∈ visited → u ∉ hd :: rest → ¬ Relation.TransGen (EdgeRel edges) u u)
    (I4 : ∀ w ∈ g hd, w ∈ visited ∧ w ∉ hd :: rest) :
    (∀ u, u ∈ visited → u ∉ rest → ∀ w, EdgeRel edges u w → w ∈ visited ∧ w ∉ rest) ∧
    (∀ u, u ∈ visited → u ∉ rest → ¬ Relation.TransGen (EdgeRel edges) u u) := by
  have hsucc : ∀ u, u ∈ visited → u ∉ rest → ∀ w, EdgeRel edges u w →
      w ∈ visited ∧ w ∉ hd :: rest := by
    intro u hu hur w hw
    by_cases hhd : u = hd
    · subst hhd
      exact I4 w (HgFull u w hw)
    · exact I2 u hu (by simp [List.mem_cons, hhd, hur]) w hw
  constructor
  · intro u hu hur w hw
    have h := hsucc u hu hur w hw
    exact ⟨h.1, fun hc => h.2 (List.mem_cons_of_mem _ hc)⟩
  · intro u hu hur htg
    by_cases hhd : u = hd
    · subst hhd
      rcases Relation.TransGen.head'_iff.mp htg with ⟨w, hw, hrt⟩
      have hwfin : w ∈ visited ∧ w ∉ u :: rest := I4 w (HgFull u w hw)
      have hufin : u ∈ visited ∧ u ∉ u :: rest :=
        reflTransGen_closed (P := fun x => x ∈ visited ∧ x ∉ u :: rest)
          (fun a ha b hb => I2 a ha.1 ha.2 b hb) hrt hwfin
      exact hufin.2 (List.mem_cons_self _ _)
    · exact I3 u hu (by simp [List.mem_cons, hhd, hur]) htg

/-- The central DFS invariant: when a call returns `false`, the visited
set has grown, the finished nodes (visited and not on the remaining
stack) are closed under edges, and no finished node lies on a cycle. -/
theorem dfsVisit_false_inv {edges : List Edge} {g : Nat → List Nat} {tIds : List Nat}
    (HgT : ∀ m m', m' ∈ g m → m' ∈ tIds)
    (HgFull : ∀ m m', EdgeRel edges m m' → m' ∈ g m) :
    ∀ fuel (ns : List Nat) (hd : Nat) (rest visited v : List Nat),
      ns.length + dfsMeasure g tIds visited ≤ fuel →
      (∀ n ∈ ns, n ∈ tIds) →
      (∀ x ∈ hd :: rest, x ∈ visited) →
      (∀ u, u ∈ visited → u ∉ hd :: rest → ∀ w, EdgeRel edges u w →
        w ∈ visited ∧ w ∉ hd :: rest) →
      (∀ u, u ∈ visited → u ∉ hd :: rest → ¬ Relation.TransGen (EdgeRel edges) u u) →
      (∀ w ∈ g hd, w ∈ ns ∨ (w ∈ visited ∧ w ∉ hd :: rest)) →
      dfsVisit g fuel ns (hd :: rest) visited = (false, v) →
      (∀ x ∈ visited, x ∈ v) ∧
      (∀ u, u ∈ v → u ∉ rest → ∀ w, EdgeRel edges u w → w ∈ v ∧ w ∉ rest) ∧
      (∀ u, u ∈ v → u ∉ rest → ¬ Relation.TransGen (EdgeRel edges) u u) := by
  intro fuel
  induction fuel with
  | zero =>
    intro ns hd rest visited v hfuel hns I1 I2 I3 I4 heq
    have hns0 : ns = [] := List.length_eq_zero.mp (by omega)
    subst hns0
    rw [dfsVisit] at heq
    obtain ⟨rfl⟩ : visited = v := by
      cases heq; rfl
    have I4' : ∀ w ∈ g hd, w ∈ visited ∧ w ∉ hd :: rest := by
      intro w hw
      rcases I4 w hw with h | h
      · cases h
      · exact h
    have hpop := dfsPop HgFull hd rest visited I1 I2 I3 I4'
    exact ⟨fun x hx => hx, hpop.1, hpop.2⟩
  | succ fuel ih =>
    intro ns hd rest visited v hfuel hns I1 I2 I3 I4 heq
    match ns, hns, hfuel, I4, heq with
    | [], hns, hfuel, I4, heq =>
      rw [dfsVisit] at heq
      obtain ⟨rfl⟩ : visited = v := by
        cases heq; rfl
      have I4' : ∀ w ∈ g hd, w ∈ visited ∧ w ∉ hd :: rest := by
        intro w hw
        rcases I4 w hw with h | h
        · cases h
        · exact h
      have hpop := dfsPop HgFull hd rest visited I1 I2 I3 I4'
      exact ⟨fun x hx => hx, hpop.1, hpop.2⟩
    | n :: restNs, hns, hfuel, I4, heq =>
      rw [dfsVisit] at heq
      by_cases hvis : n ∈ visited
      · rw [if_pos hvis] at heq
        by_cases hstk : n ∈ hd :: rest
        · rw [if_pos hstk] at heq
          cases heq
        · rw [if_neg hstk] at heq
          have I4' : ∀ w ∈ g hd, w ∈ restNs ∨ (w ∈ visited ∧ w ∉ hd :: rest) := by
            intro w hw
            rcases I4 w hw with h | h
            · rcases List.mem_cons.mp h with rfl | h2
              · exact Or.inr ⟨hvis, hstk⟩
              · exact Or.inl h2
            · exact Or.inr h
          have hfuel' : restNs.length + dfsMeasure g tIds visited ≤ fuel := by
            have := hfuel
            simp only [List.length_cons] at this
            omega
          exact ih restNs hd rest visited v hfuel'
            (fun m hm => hns m (List.mem_cons_of_mem _ hm)) I1 I2 I3 I4' heq
      · rw [if_neg hvis] at heq
        rcases hres : dfsVisit g fuel (g n) (n :: hd :: rest) (n :: visited) with ⟨b, v₁⟩
        rw [hres] at heq
        match b, heq with
        | true, heq => cases heq
        | false, heq =>
          have hnT : n ∈ tIds := hns n (List.mem_cons_self _ _)
          have hdrop := dfsMeasure_drop (g := g) hvis tIds hnT
          have hfuel₁ : (g n).length + dfsMeasure g tIds (n :: visited) ≤ fuel := by
            simp only [List.length_cons] at hfuel
            omega
          have I1₁ : ∀ x ∈ n :: hd :: rest, x ∈ n :: visited := by
            intro x hx
            rcases List.mem_cons.mp hx with rfl | hx2
            · exact List.mem_cons_self _ _
            · exact List.mem_cons_of_mem _ (I1 x hx2)
          have hsplit : ∀ u : Nat, u ∈ n :: visited → u ∉ n :: hd :: rest →
              u ∈ visited ∧ u ∉ hd :: rest := by
            intro u hu hu2
            have hun : u ≠ n := fun hc => hu2 (hc ▸ List.mem_cons_self _ _)
            refine ⟨?_, fun hc => hu2 (List.mem_cons_of_mem _ hc)⟩
            rcases List.mem_cons.mp hu with rfl | h2
            · exact absurd rfl hun
            · exact h2
          have hjoin : ∀ w : Nat, w ∈ visited → w ∉ hd :: rest →
              w ∈ n :: visited ∧ w ∉ n :: hd :: rest := by
            intro w hw hw2
            have hwn : w ≠ n := fun hc => hvis (hc ▸ hw)
            exact ⟨List.mem_cons_of_mem _ hw, fun hc => by
              rcases List.mem_cons.mp hc with rfl | h2
              · exact hwn rfl
              · exact hw2 h2⟩
          have I2₁ : ∀ u, u ∈ n :: visited → u ∉ n :: hd :: rest → ∀ w, EdgeRel edges u w →
              w ∈ n :: visited ∧ w ∉ n :: hd :: rest := by
            intro u hu hu2 w hw
            have h := hsplit u hu hu2
            have h2 := I2 u h.1 h.2 w hw
            exact hjoin w h2.1 h2.2
          have I3₁ : ∀ u, u ∈ n :: visited → u ∉ n :: hd :: rest →
              ¬ Relation.TransGen (EdgeRel edges) u u := by
            intro u hu hu2
            have h := hsplit u hu hu2
            exact I3 u h.1 h.2
          have hinner := ih (g n) n (hd :: rest) (n :: visited) v₁ hfuel₁
            (fun m hm => HgT n m hm) I1₁ I2₁ I3₁ (fun w hw => Or.inl hw) hres
          obtain ⟨mono₁, I2₂, I3₂⟩ := hinner
          have hnstk : n ∉ hd :: rest := fun hc => hvis (I1 n hc)
          have I1₂ : ∀ x ∈ hd :: rest, x ∈ v₁ := fun x hx =>
            mono₁ x (List.mem_cons_of_mem _ (I1 x hx))
          have I4₂ : ∀ w ∈ g hd, w ∈ restNs ∨ (w ∈ v₁ ∧ w ∉ hd :: rest) := by
            intro w hw
            rcases I4 w hw with h | h
            · rcases List.mem_cons.mp h with rfl | h2
              · exact Or.inr ⟨mono₁ w (List.mem_cons_self _ _), hnstk⟩
              · exact Or.inl h2
            · exact Or.inr ⟨mono₁ w (List.mem_cons_of_mem _ h.1), h.2⟩
          have hmono₂ : dfsMeasure g tIds v₁ ≤ dfsMeasure g tIds (n :: visited) :=
            dfsMeasure_mono mono₁ tIds
          have hfuel₂ : restNs.length + dfsMeasure g tIds v₁ ≤ fuel := by
            simp only [List.length_cons] at hfuel
            omega
          have hrest := ih restNs hd rest v₁ v hfuel₂
            (fun m hm => hns m (List.mem_cons_of_mem _ hm)) I1₂ I2₂ I3₂ I4₂ heq
          exact ⟨fun x hx => hrest.1 x (mono₁ x (List.mem_cons_of_mem _ hx)),
            hrest.2.1, hrest.2.2⟩

theorem sum_map_le {f f' : Nat → Nat} :
    ∀ (l : List Nat), (∀ n ∈ l, f n ≤ f' n) → (l.map f).sum ≤ (l.map f').sum := by
  intro l
  induction l with
  | nil => intro _; simp
  | cons a l ih =>
    intro h
    simp only [List.map_cons, List.sum_cons]
    have h1 := h a (List.mem_cons_self _ _)
    have h2 := ih (fun n hn => h n (List.mem_cons_of_mem _ hn))
    omega

theorem sum_map_indicator (c : Nat) :
    ∀ (l : List Nat), (l.map (fun n => if c = n then (1 : Nat) else 0)).sum ≤
      if c ∈ l then 1 * l.count c else 0 := by
  intro l
  induction l with
  | nil => simp
  | cons a l ih =>
    simp only [List.map_cons, List.sum_cons, List.count_cons]
    by_cases hca : c = a
    · subst hca
      simp only [if_pos rfl, List.mem_cons, true_or, if_pos, beq_self_eq_true]
      by_cases hcl : c ∈ l
      · simp only [if_pos hcl] at ih
        omega
      · simp only [if_neg hcl] at ih
        omega
    · rw [if_neg hca]
      have hbeq : (a == c) = false := beq_eq_false_iff_ne.mpr (fun h => hca h.symm)
      rw [hbeq]
      by_cases hcl : c ∈ l
      · simp only [if_pos hcl] at ih
        have : c ∈ a :: l := List.mem_cons_of_mem _ hcl
        simp only [if_pos this]
        omega
      · simp only [if_neg hcl] at ih
        have : c ∉ a :: l := by
          intro hc
          rcases List.mem_cons.mp hc with h | h
          · exact hca h
          · exact hcl h
        simp only [if_neg this]
        omega

theorem sum_filter_fst_le (l : List Nat) (hl : l.Nodup) :
    ∀ (edges : List Edge),
      (l.map (fun n => (edges.filter (fun e => e.1 == n)).length)).sum ≤ edges.length := by
  intro edges
  induction edges with
  | nil => simp
  | cons e es ih =>
    have hsplit : ∀ n : Nat, ((e :: es).filter (fun x => x.1 == n)).length =
        (if e.1 = n then 1 else 0) + (es.filter (fun x => x.1 == n)).length := by
      intro n
      rw [List.filter_cons]
      by_cases h : e.1 = n
      · simp only [h, if_pos, beq_self_eq_true, List.length_cons]
        omega
      · simp [h]
    calc (l.map (fun n => ((e :: es).filter (fun x => x.1 == n)).length)).sum
        = (l.map (fun n => (if e.1 = n then 1 else 0) +
            (es.filter (fun x => x.1 == n)).length)).sum := by
          congr 1
          exact List.map_congr_left (fun n _ => hsplit n)
      _ ≤ 1 + es.length := by
          have hdistrib : ∀ (ll : List Nat),
              (ll.map (fun n => (if e.1 = n then 1 else 0) +
                (es.filter (fun x => x.1 == n)).length)).sum =
              (ll.map (fun n => if e.1 = n then (1 : Nat) else 0)).sum +
              (ll.map (fun n => (es.filter (fun x => x.1 == n)).length)).sum := by
            intro ll
            induction ll with
            | nil => simp
            | cons a ll ihl => simp only [List.map_cons, List.sum_cons, ihl]; omega
          rw [hdistrib]
          have h1 := sum_map_indicator e.1 l
          have hcount : l.count e.1 ≤ 1 := List.nodup_iff_count_le_one.mp hl e.1
          have h2 := ih
          by_cases hmem : e.1 ∈ l
          · rw [if_pos hmem] at h1
            omega
          · rw [if_neg hmem] at h1
            omega
      _ ≤ (e :: es).length := by simp; omega

theorem dfsMeasure_nil_le {tasks : List TaskE} {edges : List Edge}
    (hWF : WFGraph tasks edges) :
    dfsMeasure (graphSucc tasks edges) (taskIds tasks) [] ≤ tasks.length + edges.length := by
  have hfil : (taskIds tasks).filter (fun n => !(List.contains [] n)) = taskIds tasks := by
    simp
  unfold dfsMeasure
  rw [hfil]
  have hsum : ∀ (l : List Nat),
      (l.map (fun n => (graphSucc tasks edges n).length + 1)).sum =
      (l.map (fun n => (graphSucc tasks edges n).length)).sum + l.length := by
    intro l
    induction l with
    | nil => simp
    | cons a l ihl => simp only [List.map_cons, List.sum_cons, ihl, List.length_cons]; omega
  rw [hsum]
  have hlen : (taskIds tasks).length = tasks.length := List.length_map _ _
  have hbound : ((taskIds tasks).map (fun n => (graphSucc tasks edges n).length)).sum ≤
      edges.length := by
    have hmono := @sum_map_le (fun n => (graphSucc tasks edges n).length)
      (fun n => (edges.filter (fun e => e.1 == n)).length) (taskIds tasks)
    have hle : ∀ n ∈ taskIds tasks, (graphSucc tasks edges n).length ≤
        (edges.filter (fun e => e.1 == n)).length := by
      intro n _
      unfold graphSucc succList
      split
      · rw [List.length_map]
      · simp
    exact le_trans (hmono hle) (sum_filter_fst_le (taskIds tasks) hWF.2 edges)
  omega

theorem hasCycleGo_false_inv {edges : List Edge} {g : Nat → List Nat} {tIds : List Nat}
    (HgT : ∀ m m', m' ∈ g m → m' ∈ tIds)
    (HgFull : ∀ m m', EdgeRel edges m m' → m' ∈ g m)
    (fuel : Nat) (hfuel : dfsMeasure g tIds [] < fuel) :
    ∀ (ts visited : List Nat), (∀ t ∈ ts, t ∈ tIds) →
      (∀ u, u ∈ visited → ∀ w, EdgeRel edges u w → w ∈ visited) →
      (∀ u ∈ visited, ¬ Relation.TransGen (EdgeRel edges) u u) →
      hasCycleGo g fuel ts visited = false →
      ∀ x, (x ∈ ts ∨ x ∈ visited) → ¬ Relation.TransGen (EdgeRel edges) x x := by
  intro ts
  induction ts with
  | nil =>
    intro visited _ _ I3 _ x hx
    rcases hx with hx | hx
    · cases hx
    · exact I3 x hx
  | cons t ts ih =>
    intro visited hts I2 I3 heq x hx
    rw [hasCycleGo] at heq
    by_cases hvis : t ∈ visited
    · rw [if_pos hvis] at heq
      refine ih visited (fun u hu => hts u (List.mem_cons_of_mem _ hu)) I2 I3 heq x ?_
      rcases hx with h | h
      · rcases List.mem_cons.mp h with rfl | h2
        · exact Or.inr hvis
        · exact Or.inl h2
      · exact Or.inr h
    · rw [if_neg hvis] at heq
      rcases hres : dfsVisit g fuel (g t) [t] (t :: visited) with ⟨b, v₁⟩
      rw [hres] at heq
      match b, heq with
      | true, heq => cases heq
      | false, heq =>
        have htT : t ∈ tIds := hts t (List.mem_cons_self _ _)
        have hdrop := dfsMeasure_drop (g := g) hvis tIds htT
        have hmono0 : dfsMeasure g tIds visited ≤ dfsMeasure g tIds [] :=
          dfsMeasure_mono (fun x hx => by cases hx) tIds
        have hfuel₁ : (g t).length + dfsMeasure g tIds (t :: visited) ≤ fuel := by omega
        have I1₁ : ∀ x ∈ [t], x ∈ t :: visited := by
          intro x hx
          rcases List.mem_singleton.mp hx with rfl
          exact List.mem_cons_self _ _
        have hsplit : ∀ u : Nat, u ∈ t :: visited → u ∉ [t] → u ∈ visited := by
          intro u hu hu2
          have hut : u ≠ t := fun hc => hu2 (hc ▸ List.mem_singleton.mpr rfl)
          rcases List.mem_cons.mp hu with rfl | h2
          · exact absurd rfl hut
          · exact h2
        have I2₁ : ∀ u, u ∈ t :: visited → u ∉ [t] → ∀ w, EdgeRel edges u w →
            w ∈ t :: visited ∧ w ∉ [t] := by
          intro u hu hu2 w hw
          have huv := hsplit u hu hu2
          have hwv := I2 u huv w hw
          have hwt : w ≠ t := fun hc => hvis (hc ▸ hwv)
          exact ⟨List.mem_cons_of_mem _ hwv, fun hc => hwt (List.mem_singleton.mp hc)⟩
        have I3₁ : ∀ u, u ∈ t :: visited → u ∉ [t] →
            ¬ Relation.TransGen (EdgeRel edges) u u := by
          intro u hu hu2
          exact I3 u (hsplit u hu hu2)
        have hinner := dfsVisit_false_inv HgT HgFull fuel (g t) t [] (t :: visited) v₁
          hfuel₁ (fun m hm => HgT t m hm) I1₁ I2₁ I3₁ (fun w hw => Or.inl hw) hres
        obtain ⟨mono₁, I2₂, I3₂⟩ := hinner
        have I2' : ∀ u, u ∈ v₁ → ∀ w, EdgeRel edges u w → w ∈ v₁ := by
          intro u hu w hw
          exact (I2₂ u hu (by simp) w hw).1
        have I3' : ∀ u ∈ v₁, ¬ Relation.TransGen (EdgeRel edges) u u := by
          intro u hu
          exact I3₂ u hu (by simp)
        refine ih v₁ (fun u hu => hts u (List.mem_cons_of_mem _ hu)) I2' I3' heq x ?_
        rcases hx with h | h
        · rcases List.mem_cons.mp h with rfl | h2
          · exact Or.inr (mono₁ x (List.mem_cons_self _ _))
          · exact Or.inl h2
        · exact Or.inr (mono₁ x (List.mem_cons_of_mem _ h))

/-- `has_cycle` soundness: a `true` answer means the edges really contain
a directed cycle. -/
theorem has_cycle_true_cyclic {tasks : List TaskE} {edges : List Edge}
    (h : has_cycle tasks edges = true) : Cyclic edges :=
  hasCycleGo_true_cyclic (fun m m' hm => mem_graphSucc hm) _ _ _ h

/-- `has_cycle` completeness: on a well-formed project graph, a `false`
answer means the edges are acyclic. -/
theorem has_cycle_false_acyclic {tasks : List TaskE} {edges : List Edge}
    (hWF : WFGraph tasks edges) (h : has_cycle tasks edges = false) : ¬ Cyclic edges := by
  rintro ⟨x, hx⟩
  have hxT : x ∈ taskIds tasks := by
    rcases Relation.TransGen.head'_iff.mp hx with ⟨w, hw, _⟩
    exact (hWF.1 _ hw).1
  exact hasCycleGo_false_inv (g := graphSucc tasks edges)
    (fun m m' hm => mem_graphSucc_taskIds hWF hm)
    (fun m m' hm => edgeRel_mem_graphSucc hWF hm)
    (tasks.length + edges.length + 1)
    (by have := dfsMeasure_nil_le hWF; omega)
    (taskIds tasks) [] (fun t ht => ht)
    (fun u hu => by cases hu) (fun u hu => by cases hu) h x (Or.inl hxT) hx

/-- The two directions packaged as an equivalence. -/
theorem has_cycle_iff_cyclic {tasks : List TaskE} {edges : List Edge}
    (hWF : WFGraph tasks edges) : has_cycle tasks edges = true ↔ Cyclic edges := by
  constructor
  · exact has_cycle_true_cyclic
  · intro hc
    by_contra hne
    exact has_cycle_false_acyclic hWF (Bool.not_eq_true _ ▸ hne) hc

/-! ### The priority queue of the scheduler -/

theorem sortQueue_perm (prio : Nat → Int) (queue : List Nat) :
    (sortQueue prio queue).Perm queue :=
  List.perm_insertionSort _ _

theorem sortQueue_head_max {prio : Nat → Int} {queue q' : List Nat} {c : Nat}
    (hpop : sortQueue prio queue = c :: q') :
    ∀ x ∈ queue, prio x ≤ prio c := by
  haveI : IsTotal Nat (fun a b => prio b ≤ prio a) := ⟨fun a b => Int.le_total _ _⟩
  haveI : IsTrans Nat (fun a b => prio b ≤ prio a) :=
    ⟨fun _ _ _ h1 h2 => le_trans h2 h1⟩
  have hsorted := List.sorted_insertionSort (fun a b => prio b ≤ prio a) queue
  rw [show queue.insertionSort (fun a b => prio b ≤ prio a) = sortQueue prio queue from rfl,
    hpop] at hsorted
  intro x hx
  have hx' : x ∈ c :: q' := by
    rw [← hpop]
    exact ((sortQueue_perm prio queue).mem_iff).mpr hx
  rcases List.mem_cons.mp hx' with rfl | hx2
  · exact le_refl _
  · exact (List.sorted_cons.mp hsorted).1 x hx2

/-! ### The neighbour-processing loop -/

theorem stepNeighbors_val :
    ∀ (ns queue : List Nat) (indeg : Nat → Int) (v : Nat),
      (stepNeighbors ns queue indeg).2 v = indeg v - (ns.count v : Int) := by
  intro ns
  induction ns with
  | nil => intro queue indeg v; simp [stepNeighbors]
  | cons n rest ih =>
    intro queue indeg v
    rw [stepNeighbors]
    have hcnt : (n :: rest).count v = rest.count v + if (n == v) = true then 1 else 0 :=
      List.count_cons v n rest
    have hkey : (if v = n then indeg v - 1 else indeg v) - (rest.count v : Int) =
        indeg v - ((n :: rest).count v : Int) := by
      rw [hcnt]
      by_cases hvn : v = n
      · subst hvn
        rw [if_pos rfl, if_pos (beq_self_eq_true v)]
        push_cast
        omega
      · rw [if_neg hvn, if_neg (by simp [beq_eq_false_iff_ne.mpr (Ne.symm hvn)])]
        push_cast
        omega
    by_cases hz : indeg n - 1 = 0
    · rw [if_pos hz, ih]
      exact hkey
    · rw [if_neg hz, ih]
      exact hkey

theorem stepNeighbors_mem :
    ∀ (ns queue : List Nat) (indeg : Nat → Int) (x : Nat),
      x ∈ (stepNeighbors ns queue indeg).1 ↔
        x ∈ queue ∨ (1 ≤ indeg x ∧ indeg x ≤ (ns.count x : Int)) := by
  intro ns
  induction ns with
  | nil =>
    intro queue indeg x
    simp [stepNeighbors]
    omega
  | cons n rest ih =>
    intro queue indeg x
    rw [stepNeighbors]
    have hcnt : ((n :: rest).count x : Int) = (rest.count x : Int) +
        if (n == x) = true then 1 else 0 := by
      rw [List.count_cons x n rest]
      push_cast
      split <;> omega
    have hupd : ∀ y, (fun z => if z = n then indeg z - 1 else indeg z) y =
        if y = n then indeg y - 1 else indeg y := fun _ => rfl
    by_cases hz : indeg n - 1 = 0
    · rw [if_pos hz, ih]
      simp only [List.mem_append, List.mem_singleton]
      by_cases hxn : x = n
      · subst hxn
        rw [if_pos rfl, hcnt, if_pos (beq_self_eq_true x)]
        constructor
        · intro h
          rcases h with (h | heq) | ⟨h1, h2⟩
          · exact Or.inl h
          · exact Or.inr ⟨by omega, by omega⟩
          · exact Or.inr ⟨by omega, by omega⟩
        · intro h
          rcases h with h | ⟨h1, h2⟩
          · exact Or.inl (Or.inl h)
          · exact Or.inl (Or.inr rfl)
      · rw [if_neg hxn, hcnt,
          if_neg (by simp [beq_eq_false_iff_ne.mpr (fun h : n = x => hxn h.symm)])]
        constructor
        · intro h
          rcases h with (h | heq) | ⟨h1, h2⟩
          · exact Or.inl h
          · exact absurd heq hxn
          · exact Or.inr ⟨h1, by omega⟩
        · intro h
          rcases h with h | ⟨h1, h2⟩
          · exact Or.inl (Or.inl h)
          · exact Or.inr ⟨h1, by omega⟩
    · rw [if_neg hz, ih]
      by_cases hxn : x = n
      · subst hxn
        rw [if_pos rfl, hcnt, if_pos (beq_self_eq_true x)]
        constructor
        · intro h
          rcases h with h | ⟨h1, h2⟩
          · exact Or.inl h
          · exact Or.inr ⟨by omega, by omega⟩
        · intro h
          rcases h with h | ⟨h1, h2⟩
          · exact Or.inl h
          · refine Or.inr ⟨by omega, by omega⟩
      · rw [if_neg hxn, hcnt,
          if_neg (by simp [beq_eq_false_iff_ne.mpr (fun h : n = x => hxn h.symm)])]
        constructor
        · intro h
          rcases h with h | ⟨h1, h2⟩
          · exact Or.inl h
          · exact Or.inr ⟨h1, by omega⟩
        · intro h
          rcases h with h | ⟨h1, h2⟩
          · exact Or.inl h
          · exact Or.inr ⟨h1, by omega⟩

theorem stepNeighbors_nodup :
    ∀ (ns queue : List Nat) (indeg : Nat → Int), queue.Nodup →
      (∀ x ∈ queue, indeg x ≤ 0) → (stepNeighbors ns queue indeg).1.Nodup := by
  intro ns
  induction ns with
  | nil => intro queue indeg h _; exact h
  | cons n rest ih =>
    intro queue indeg hnd hle
    rw [stepNeighbors]
    by_cases hz : indeg n - 1 = 0
    · rw [if_pos hz]
      have hnq : n ∉ queue := by
        intro hc
        have := hle n hc
        omega
      refine ih (queue ++ [n]) _ ?_ ?_
      · rw [List.nodup_append]
        exact ⟨hnd, List.nodup_singleton n, by
          intro a ha hb
          rcases List.mem_singleton.mp hb with rfl
          exact hnq ha⟩
      · intro x hx
        rcases List.mem_append.mp hx with hx | hx
        · have hxn : x ≠ n := fun hc => hnq (hc ▸ hx)
          simp only [if_neg hxn]
          exact hle x hx
        · rcases List.mem_singleton.mp hx with rfl
          simp only [if_pos rfl, if_true]
          omega
    · rw [if_neg hz]
      refine ih queue _ hnd ?_
      intro x hx
      by_cases hxn : x = n
      · subst hxn
        simp only [if_pos rfl, if_true]
        have := hle x hx
        omega
      · simp only [if_neg hxn]
        exact hle x hx

theorem remInDeg_nonneg (edges : List Edge) (acc : List Nat) (v : Nat) :
    0 ≤ remInDeg edges acc v := Int.ofNat_nonneg _

theorem remInDeg_nil (edges : List Edge) (v : Nat) :
    remInDeg edges [] v = indeg0 edges v := by
  unfold remInDeg indeg0
  congr 2
  apply List.filter_congr
  intro e _
  simp

theorem remInDeg_cons (e : Edge) (es : List Edge) (ac : List Nat) (v : Nat) :
    remInDeg (e :: es) ac v =
      (if e.2 = v ∧ e.1 ∉ ac then 1 else 0) + remInDeg es ac v := by
  unfold remInDeg
  rw [List.filter_cons]
  by_cases h : e.2 = v ∧ e.1 ∉ ac
  · have hb : (e.2 == v && !(ac.contains e.1)) = true := by
      simp [List.elem_iff, h.1, h.2]
    rw [if_pos hb, if_pos h, List.length_cons]
    push_cast
    omega
  · have hb : ¬ ((e.2 == v && !(ac.contains e.1)) = true) := by
      simp only [Bool.and_eq_true, beq_iff_eq, Bool.not_eq_true']
      intro hc
      exact h ⟨hc.1, by
        have := hc.2
        simp [List.elem_iff] at this
        exact this⟩
    rw [if_neg hb, if_neg h]
    omega

theorem succList_count_cons (e : Edge) (es : List Edge) (c v : Nat) :
    ((succList (e :: es) c).count v : Int) =
      (if e.1 = c ∧ e.2 = v then 1 else 0) + ((succList es c).count v : Int) := by
  unfold succList
  rw [List.filter_cons]
  by_cases h1 : e.1 = c
  · have hb : (e.1 == c) = true := beq_iff_eq.mpr h1
    rw [if_pos hb, List.map_cons, List.count_cons]
    by_cases h2 : e.2 = v
    · have hb2 : (e.2 == v) = true := beq_iff_eq.mpr h2
      rw [hb2, if_pos (show e.1 = c ∧ e.2 = v from ⟨h1, h2⟩)]
      simp
      omega
    · have hb2 : (e.2 == v) = false := beq_eq_false_iff_ne.mpr h2
      rw [hb2, if_neg (show ¬ (e.1 = c ∧ e.2 = v) from fun hc => h2 hc.2)]
      simp
  · have hb : (e.1 == c) = false := beq_eq_false_iff_ne.mpr h1
    rw [hb]
    rw [if_neg (show ¬ (e.1 = c ∧ e.2 = v) from fun hc => h1 hc.1)]
    simp

theorem remInDeg_append {acc : List Nat} {c : Nat} (hc : c ∉ acc) :
    ∀ (edges : List Edge) (v : Nat),
      remInDeg edges (acc ++ [c]) v + ((succList edges c).count v : Int) =
        remInDeg edges acc v := by
  intro edges
  induction edges with
  | nil => intro v; simp [remInDeg, succList]
  | cons e es ih =>
    intro v
    rw [remInDeg_cons, remInDeg_cons, succList_count_cons]
    have hmem : e.1 ∉ acc ++ [c] ↔ (e.1 ∉ acc ∧ e.1 ≠ c) := by
      simp [List.mem_append]
    have hih := ih v
    by_cases hv : e.2 = v
    · by_cases hac : e.1 ∈ acc
      · have h1 : ¬ (e.2 = v ∧ e.1 ∉ acc ++ [c]) := by
          intro hcon
          exact (hmem.mp hcon.2).1 hac
        have h2 : ¬ (e.1 = c ∧ e.2 = v) := by
          intro hcon
          exact hc (hcon.1 ▸ hac)
        have h3 : ¬ (e.2 = v ∧ e.1 ∉ acc) := fun hcon => hcon.2 hac
        rw [if_neg h1, if_neg h2, if_neg h3]
        omega
      · by_cases hc1 : e.1 = c
        · have h1 : ¬ (e.2 = v ∧ e.1 ∉ acc ++ [c]) := by
            intro hcon
            exact (hmem.mp hcon.2).2 hc1
          have h2 : e.1 = c ∧ e.2 = v := ⟨hc1, hv⟩
          have h3 : e.2 = v ∧ e.1 ∉ acc := ⟨hv, hac⟩
          rw [if_neg h1, if_pos h2, if_pos h3]
          omega
        · have h1 : e.2 = v ∧ e.1 ∉ acc ++ [c] := ⟨hv, hmem.mpr ⟨hac, hc1⟩⟩
          have h2 : ¬ (e.1 = c ∧ e.2 = v) := fun hcon => hc1 hcon.1
          have h3 : e.2 = v ∧ e.1 ∉ acc := ⟨hv, hac⟩
          rw [if_pos h1, if_neg h2, if_pos h3]
          omega
    · have h1 : ¬ (e.2 = v ∧ e.1 ∉ acc ++ [c]) := fun hcon => hv hcon.1
      have h2 : ¬ (e.1 = c ∧ e.2 = v) := fun hcon => hv hcon.2
      have h3 : ¬ (e.2 = v ∧ e.1 ∉ acc) := fun hcon => hv hcon.1
      rw [if_neg h1, if_neg h2, if_neg h3]
      omega

/-! ### Pigeonhole: a finite set where everyone has a predecessor yields a cycle -/

theorem cyclic_of_predecessors {edges : List Edge} (S : Finset Nat) (hne : S.Nonempty)
    (hstep : ∀ u ∈ S, ∃ p, p ∈ S ∧ EdgeRel edges p u) : Cyclic edges := by
  classical
  have hpick : ∀ u : {x // x ∈ S}, ∃ p : {x // x ∈ S}, EdgeRel edges p.1 u.1 := by
    intro u
    rcases hstep u.1 u.2 with ⟨p, hp, he⟩
    exact ⟨⟨p, hp⟩, he⟩
  choose pick hpickSpec using hpick
  obtain ⟨u₀, hu₀⟩ := hne
  set f : Nat → {x // x ∈ S} := fun k => pick^[k] ⟨u₀, hu₀⟩ with hf
  have hedge : ∀ k, EdgeRel edges (f (k + 1)).1 (f k).1 := by
    intro k
    have : f (k + 1) = pick (f k) := Function.iterate_succ_apply' pick k _
    rw [this]
    exact hpickSpec (f k)
  have hpath : ∀ d i, Relation.TransGen (EdgeRel edges) (f (i + d + 1)).1 (f i).1 := by
    intro d
    induction d with
    | zero => intro i; exact Relation.TransGen.single (hedge i)
    | succ d ihd =>
      intro i
      have h1 : EdgeRel edges (f (i + d + 2)).1 (f (i + d + 1)).1 := hedge (i + d + 1)
      have h2 := ihd i
      exact Relation.TransGen.head h1 h2
  have hmaps : ∀ k ∈ Finset.range (S.card + 1), (f k).1 ∈ S := fun k _ => (f k).2
  have hcard : S.card < (Finset.range (S.card + 1)).card := by
    rw [Finset.card_range]
    omega
  obtain ⟨i, _, j, _, hij, hfij⟩ :=
    Finset.exists_ne_map_eq_of_card_lt_of_maps_to hcard hmaps
  rcases Nat.lt_or_ge i j with hlt | hge
  · refine ⟨(f i).1, ?_⟩
    have := hpath (j - i - 1) i
    have hj : i + (j - i - 1) + 1 = j := by omega
    rw [hj] at this
    rw [← hfij] at this
    exact this
  · have hlt : j < i := by
      rcases Nat.lt_or_ge j i with h | h
      · exact h
      · omega
    refine ⟨(f j).1, ?_⟩
    have := hpath (i - j - 1) j
    have hi : j + (i - j - 1) + 1 = i := by omega
    rw [hi] at this
    rw [hfij] at this
    exact this

/-! ### Order bookkeeping: `beforeFirst` and `takeWhile` -/

theorem takeWhile_append_all {p : Nat → Bool} :
    ∀ {l₁ : List Nat} (l₂ : List Nat), (∀ y ∈ l₁, p y = true) →
      (l₁ ++ l₂).takeWhile p = l₁ ++ l₂.takeWhile p := by
  intro l₁
  induction l₁ with
  | nil => intro l₂ _; simp
  | cons a l ih =>
    intro l₂ h
    rw [List.cons_append, List.takeWhile_cons, if_pos (h a (List.mem_cons_self _ _)),
      List.cons_append, ih l₂ (fun y hy => h y (List.mem_cons_of_mem _ hy))]

theorem takeWhile_append_stop {p : Nat → Bool} :
    ∀ {l₁ : List Nat} {y : Nat}, y ∈ l₁ → p y = false →
      ∀ (l₂ : List Nat), (l₁ ++ l₂).takeWhile p = l₁.takeWhile p := by
  intro l₁
  induction l₁ with
  | nil => intro y hy; cases hy
  | cons a l ih =>
    intro y hy hpy l₂
    rw [List.cons_append, List.takeWhile_cons, List.takeWhile_cons]
    by_cases hpa : p a = true
    · rw [if_pos hpa, if_pos hpa]
      rcases List.mem_cons.mp hy with rfl | hy2
      · rw [hpy] at hpa; cases hpa
      · rw [ih hy2 hpy l₂]
    · rw [if_neg hpa, if_neg hpa]

theorem beforeFirst_mem {l : List Nat} {p s : Nat} (h : beforeFirst l p s) : p ∈ l :=
  (List.takeWhile_sublist _).subset h

theorem beforeFirst_append {acc l : List Nat} {p s : Nat}
    (h : beforeFirst acc p s) (hs : s ∈ acc) : beforeFirst (acc ++ l) p s := by
  unfold beforeFirst at h ⊢
  rw [takeWhile_append_stop hs (by simp) l]
  exact h

theorem beforeFirst_new {acc : List Nat} {c p : Nat} (hc : c ∉ acc) (hp : p ∈ acc) :
    beforeFirst (acc ++ [c]) p c := by
  unfold beforeFirst
  rw [takeWhile_append_all [c] (fun y hy => by
    have : y ≠ c := fun hyc => hc (hyc ▸ hy)
    simp [this])]
  have : List.takeWhile (fun x => x != c) [c] = [] := by simp
  rw [this, List.append_nil]
  exact hp

theorem beforeFirst_trans :
    ∀ {l : List Nat} {a b c : Nat}, beforeFirst l a b → beforeFirst l b c →
      beforeFirst l a c := by
  intro l
  induction l with
  | nil => intro a b c h _; cases h
  | cons x l ih =>
    intro a b c hab hbc
    unfold beforeFirst at hab hbc ⊢
    rw [List.takeWhile_cons] at hab hbc ⊢
    by_cases hxc : x = c
    · subst hxc
      rw [if_neg (by simp)] at hbc
      cases hbc
    · rw [if_pos (by simp [hxc])] at hbc ⊢
      by_cases hxb : x = b
      · subst hxb
        rw [if_neg (by simp)] at hab
        cases hab
      · rw [if_pos (by simp [hxb])] at hab
        rcases List.mem_cons.mp hab with rfl | hab2
        · exact List.mem_cons_self _ _
        · rcases List.mem_cons.mp hbc with heq | hbc2
          · exact absurd heq.symm hxb
          · exact List.mem_cons_of_mem _ (ih hab2 hbc2)

theorem beforeFirst_irrefl {l : List Nat} {p : Nat} (h : beforeFirst l p p) : False := by
  have := List.mem_takeWhile_imp h
  simp at this

theorem beforeFirst_appears {l : List Nat} {p s : Nat}
    (h : beforeFirst l p s) (hs : s ∈ l) : appears_before l p s := by
  unfold beforeFirst at h
  have hdrop : ∀ (l' : List Nat), s ∈ l' →
      ∃ rest, l'.dropWhile (fun x => x != s) = s :: rest := by
    intro l'
    induction l' with
    | nil => intro hc; cases hc
    | cons a l' ihd =>
      intro hmem
      rw [List.dropWhile_cons]
      by_cases has : a = s
      · subst has
        rw [if_neg (by simp)]
        exact ⟨l', rfl⟩
      · rw [if_pos (by simp [has])]
        refine ihd ?_
        rcases List.mem_cons.mp hmem with heq | h2
        · exact absurd heq.symm has
        · exact h2
  obtain ⟨rest, hrest⟩ := hdrop l hs
  obtain ⟨s1, t1, hsplit⟩ := List.append_of_mem h
  refine ⟨s1, t1, rest, ?_⟩
  have hl : l = l.takeWhile (fun x => x != s) ++ l.dropWhile (fun x => x != s) :=
    (List.takeWhile_append_dropWhile _ _).symm
  rw [hl, hsplit, hrest]

/-! ### Extracting predecessors from the remaining in-degree -/

theorem exists_pred_of_remInDeg_ne {edges : List Edge} {acc : List Nat} {v : Nat}
    (h : remInDeg edges acc v ≠ 0) : ∃ p, (p, v) ∈ edges ∧ p ∉ acc := by
  unfold remInDeg at h
  have hlen : (edges.filter (fun e => e.2 == v && !(acc.contains e.1))).length ≠ 0 := by
    intro hc
    rw [hc] at h
    exact h rfl
  obtain ⟨e, he⟩ := List.exists_mem_of_ne_nil
    (edges.filter (fun e => e.2 == v && !(acc.contains e.1)))
    (fun hc => hlen (by rw [hc]; rfl))
  rw [List.mem_filter] at he
  have h2 := he.2
  rw [Bool.and_eq_true] at h2
  have hv : e.2 = v := beq_iff_eq.mp h2.1
  have hna : e.1 ∉ acc := by
    have hb := h2.2
    simp only [Bool.not_eq_eq_eq_not, Bool.not_true, List.contains_eq_any_beq] at hb
    intro hc
    simp at hb
    exact hb e.1 hc rfl
  exact ⟨e.1, by rw [← hv]; exact he.1, hna⟩

theorem pred_mem_of_remInDeg_zero {edges : List Edge} {acc : List Nat} {v : Nat}
    (h : remInDeg edges acc v = 0) :
    ∀ e ∈ edges, e.2 = v → e.1 ∈ acc := by
  intro e he hev
  by_contra hna
  have hmem : e ∈ edges.filter (fun e => e.2 == v && !(acc.contains e.1)) := by
    rw [List.mem_filter]
    refine ⟨he, ?_⟩
    rw [Bool.and_eq_true]
    constructor
    · exact beq_iff_eq.mpr hev
    · rw [Bool.not_eq_eq_eq_not, Bool.not_true]
      rw [← Bool.not_eq_true]
      intro hc
      rw [List.elem_iff] at hc
      exact hna hc
  unfold remInDeg at h
  have : (edges.filter (fun e => e.2 == v && !(acc.contains e.1))).length = 0 := by
    omega
  rw [List.length_eq_zero] at this
  rw [this] at hmem
  cases hmem

/-! ### The main loop invariant of the scheduler -/

theorem kahnLoop_inv {tasks : List TaskE} {edges : List Edge} (hWF : WFGraph tasks edges) :
    ∀ (fuel : Nat) (queue : List Nat) (indeg : Nat → Int) (acc res : List Nat),
      kahnLoop (graphSucc tasks edges) (prioOf tasks) fuel queue indeg acc = res →
      fuel + acc.length = tasks.length →
      queue.Nodup →
      (∀ q ∈ queue, q ∈ taskIds tasks ∧ q ∉ acc) →
      acc.Nodup →
      (∀ a ∈ acc, a ∈ taskIds tasks) →
      (∀ v, indeg v = remInDeg edges acc v) →
      (∀ a ∈ acc, indeg a = 0) →
      (∀ v ∈ taskIds tasks, v ∉ acc → (v ∈ queue ↔ indeg v = 0)) →
      (∀ e ∈ edges, e.2 ∈ acc → beforeFirst acc e.1 e.2) →
      res.Nodup ∧ (∀ a ∈ res, a ∈ taskIds tasks) ∧
      (∀ e ∈ edges, e.2 ∈ res → beforeFirst res e.1 e.2) ∧
      (¬ Cyclic edges → ∀ t ∈ taskIds tasks, t ∈ res) := by
  intro fuel
  induction fuel with
  | zero =>
    intro queue indeg acc res hres hfuel hqnd J2 J4 J4b J1 J7 J3 J5
    rw [kahnLoop] at hres
    subst hres
    refine ⟨J4, J4b, J5, ?_⟩
    intro _ t htT
    have hsub : acc.toFinset ⊆ (taskIds tasks).toFinset := by
      intro x hx
      exact List.mem_toFinset.mpr (J4b x (List.mem_toFinset.mp hx))
    have hcard1 : acc.toFinset.card = acc.length := List.toFinset_card_of_nodup J4
    have hcard2 : (taskIds tasks).toFinset.card = tasks.length := by
      rw [List.toFinset_card_of_nodup hWF.2]
      exact List.length_map _ _
    have heq : acc.toFinset = (taskIds tasks).toFinset :=
      Finset.eq_of_subset_of_card_le hsub (by omega)
    rw [← List.mem_toFinset, ← heq] at htT
    exact List.mem_toFinset.mp htT
  | succ fuel ih =>
    intro queue indeg acc res hres hfuel hqnd J2 J4 J4b J1 J7 J3 J5
    rw [kahnLoop] at hres
    rcases hpop : sortQueue (prioOf tasks) queue with _ | ⟨c, q'⟩
    · rw [hpop] at hres
      have hacc : acc = res := hres
      subst hacc
      have hqnil : queue = [] := by
        have h := sortQueue_perm (prioOf tasks) queue
        rw [hpop] at h
        exact h.symm.eq_nil
      refine ⟨J4, J4b, J5, ?_⟩
      intro hacyc t htT
      by_contra htacc
      have hne : ((taskIds tasks).toFinset \ acc.toFinset).Nonempty :=
        ⟨t, Finset.mem_sdiff.mpr ⟨List.mem_toFinset.mpr htT,
          fun hc => htacc (List.mem_toFinset.mp hc)⟩⟩
      refine hacyc (cyclic_of_predecessors _ hne ?_)
      intro u hu
      rw [Finset.mem_sdiff] at hu
      have huT : u ∈ taskIds tasks := List.mem_toFinset.mp hu.1
      have hua : u ∉ acc := fun hc => hu.2 (List.mem_toFinset.mpr hc)
      have hune : remInDeg edges acc u ≠ 0 := by
        rw [← J1]
        intro h0
        have := (J3 u huT hua).mpr h0
        rw [hqnil] at this
        cases this
      obtain ⟨p, hpe, hpa⟩ := exists_pred_of_remInDeg_ne hune
      refine ⟨p, Finset.mem_sdiff.mpr ⟨List.mem_toFinset.mpr (hWF.1 (p, u) hpe).1,
        fun hc => hpa (List.mem_toFinset.mp hc)⟩, hpe⟩
    · rw [hpop] at hres
      have hres' : kahnLoop (graphSucc tasks edges) (prioOf tasks) fuel
          (stepNeighbors (graphSucc tasks edges c) q' indeg).1
          (stepNeighbors (graphSucc tasks edges c) q' indeg).2 (acc ++ [c]) = res := hres
      have hperm : (c :: q').Perm queue := by
        have h := sortQueue_perm (prioOf tasks) queue
        rw [hpop] at h
        exact h
      have hcq : c ∈ queue := hperm.subset (List.mem_cons_self _ _)
      have hc2 := J2 c hcq
      have hcnd : (c :: q').Nodup := hperm.symm.nodup hqnd
      have hcq' : c ∉ q' := (List.nodup_cons.mp hcnd).1
      have hq'nd : q'.Nodup := (List.nodup_cons.mp hcnd).2
      have hindc : indeg c = 0 := (J3 c hc2.1 hc2.2).mp hcq
      have hgc : graphSucc tasks edges c = succList edges c := if_pos hc2.1
      have hval : ∀ v, (stepNeighbors (graphSucc tasks edges c) q' indeg).2 v =
          remInDeg edges (acc ++ [c]) v := by
        intro v
        rw [stepNeighbors_val, hgc, J1 v]
        have happ := remInDeg_append hc2.2 edges v
        omega
      have hcnt_le : ∀ v, ((succList edges c).count v : Int) ≤ remInDeg edges acc v := by
        intro v
        have happ := remInDeg_append hc2.2 edges v
        have hnn := remInDeg_nonneg edges (acc ++ [c]) v
        omega
      have hq'le : ∀ x ∈ q', indeg x = 0 := by
        intro x hx
        have hxq : x ∈ queue := hperm.subset (List.mem_cons_of_mem _ hx)
        exact (J3 x (J2 x hxq).1 (J2 x hxq).2).mp hxq
      have hnodup'' : (stepNeighbors (graphSucc tasks edges c) q' indeg).1.Nodup :=
        stepNeighbors_nodup _ _ _ hq'nd (fun x hx => le_of_eq (hq'le x hx))
      have J2' : ∀ q ∈ (stepNeighbors (graphSucc tasks edges c) q' indeg).1,
          q ∈ taskIds tasks ∧ q ∉ acc ++ [c] := by
        intro x hx
        rw [stepNeighbors_mem] at hx
        rcases hx with hx | ⟨h1, _⟩
        · have hxq : x ∈ queue := hperm.subset (List.mem_cons_of_mem _ hx)
          have h2 := J2 x hxq
          refine ⟨h2.1, fun hc => ?_⟩
          rcases List.mem_append.mp hc with hc | hc
          · exact h2.2 hc
          · rcases List.mem_singleton.mp hc with rfl
            exact hcq' hx
        · have hne0 : remInDeg edges acc x ≠ 0 := by
            rw [← J1]
            omega
          obtain ⟨p, hpe, _⟩ := exists_pred_of_remInDeg_ne hne0
          refine ⟨(hWF.1 (p, x) hpe).2, fun hc => ?_⟩
          rcases List.mem_append.mp hc with hc | hc
          · have := J7 x hc
            omega
          · rcases List.mem_singleton.mp hc with rfl
            omega
      have J4' : (acc ++ [c]).Nodup := by
        rw [List.nodup_append]
        exact ⟨J4, List.nodup_singleton c, fun a ha hb => by
          rcases List.mem_singleton.mp hb with rfl
          exact hc2.2 ha⟩
      have J4b' : ∀ a ∈ acc ++ [c], a ∈ taskIds tasks := by
        intro a ha
        rcases List.mem_append.mp ha with ha | ha
        · exact J4b a ha
        · rcases List.mem_singleton.mp ha with rfl
          exact hc2.1
      have J7' : ∀ a ∈ acc ++ [c], (stepNeighbors (graphSucc tasks edges c) q' indeg).2 a = 0 := by
        intro a ha
        rw [hval a]
        have happ := remInDeg_append hc2.2 edges a
        have hnn := remInDeg_nonneg edges (acc ++ [c]) a
        have hupper : remInDeg edges acc a = 0 := by
          rcases List.mem_append.mp ha with ha | ha
          · rw [← J1]
            exact J7 a ha
          · rcases List.mem_singleton.mp ha with rfl
            rw [← J1]
            exact hindc
        omega
      have J3' : ∀ v ∈ taskIds tasks, v ∉ acc ++ [c] →
          (v ∈ (stepNeighbors (graphSucc tasks edges c) q' indeg).1 ↔
            (stepNeighbors (graphSucc tasks edges c) q' indeg).2 v = 0) := by
        intro v hvT hvacc'
        have hvacc : v ∉ acc := fun hc => hvacc' (List.mem_append.mpr (Or.inl hc))
        have hvc : v ≠ c := fun hc => hvacc'
          (List.mem_append.mpr (Or.inr (List.mem_singleton.mpr hc)))
        rw [stepNeighbors_mem, hval v]
        have happ : remInDeg edges (acc ++ [c]) v +
            (((graphSucc tasks edges c).count v : Int)) = remInDeg edges acc v := by
          rw [hgc]
          exact remInDeg_append hc2.2 edges v
        have hcle : (((graphSucc tasks edges c).count v : Int)) ≤ remInDeg edges acc v := by
          rw [hgc]
          exact hcnt_le v
        have hnn := remInDeg_nonneg edges (acc ++ [c]) v
        have hnn2 := remInDeg_nonneg edges acc v
        have hJ1v := J1 v
        by_cases hvq' : v ∈ q'
        · have h0 : indeg v = 0 := hq'le v hvq'
          constructor
          · intro _
            omega
          · intro _
            exact Or.inl hvq'
        · have hvnq : v ∉ queue := by
            intro hc
            rcases List.mem_cons.mp (hperm.mem_iff.mpr hc) with rfl | hc2'
            · exact hvc rfl
            · exact hvq' hc2'
          have hne : ¬ (indeg v = 0) := fun h0 => hvnq ((J3 v hvT hvacc).mpr h0)
          constructor
          · rintro (h | ⟨h1, h2⟩)
            · exact absurd h hvq'
            · omega
          · intro h0
            refine Or.inr ⟨by omega, by omega⟩
      have J5' : ∀ e ∈ edges, e.2 ∈ acc ++ [c] → beforeFirst (acc ++ [c]) e.1 e.2 := by
        intro e he h2
        rcases List.mem_append.mp h2 with h2 | h2
        · exact beforeFirst_append (J5 e he h2) h2
        · have h2c : e.2 = c := List.mem_singleton.mp h2
          have hz : remInDeg edges acc c = 0 := by
            rw [← J1]
            exact hindc
          have hp : e.1 ∈ acc := pred_mem_of_remInDeg_zero hz e he h2c
          rw [h2c]
          exact beforeFirst_new hc2.2 hp
      have hfuel' : fuel + (acc ++ [c]).length = tasks.length := by
        rw [List.length_append]
        simp only [List.length_singleton]
        omega
      exact ih _ _ _ res hres' hfuel' hnodup'' J2' J4' J4b' hval J7' J3' J5'

/-! ### Consequences for `kahnIds` and `topological_sort` -/

theorem kahnIds_spec {tasks : List TaskE} {edges : List Edge} (hWF : WFGraph tasks edges) :
    (kahnIds tasks edges).Nodup ∧
    (∀ a ∈ kahnIds tasks edges, a ∈ taskIds tasks) ∧
    (∀ e ∈ edges, e.2 ∈ kahnIds tasks edges → beforeFirst (kahnIds tasks edges) e.1 e.2) ∧
    (¬ Cyclic edges → ∀ t ∈ taskIds tasks, t ∈ kahnIds tasks edges) := by
  refine kahnLoop_inv hWF tasks.length _ (indeg0 edges) [] _ rfl (by simp)
    (hWF.2.filter _) ?_ List.nodup_nil (fun a ha => by cases ha)
    (fun v => (remInDeg_nil edges v).symm) (fun a ha => by cases ha) ?_
    (fun e _ h2 => by cases h2)
  · intro q hq
    exact ⟨(List.mem_filter.mp hq).1, fun hc => by cases hc⟩
  · intro v hvT _
    rw [List.mem_filter]
    constructor
    · intro h
      exact beq_iff_eq.mp h.2
    · intro h
      exact ⟨hvT, beq_iff_eq.mpr h⟩

theorem kahnIds_transGen_before {tasks : List TaskE} {edges : List Edge}
    (hWF : WFGraph tasks edges) {p s : Nat}
    (h : Relation.TransGen (EdgeRel edges) p s) (hs : s ∈ kahnIds tasks edges) :
    beforeFirst (kahnIds tasks edges) p s ∧ p ∈ kahnIds tasks edges := by
  induction h with
  | single he =>
    have hb := (kahnIds_spec hWF).2.2.1 _ he hs
    exact ⟨hb, beforeFirst_mem hb⟩
  | tail _ he ihp =>
    have hb := (kahnIds_spec hWF).2.2.1 _ he hs
    have hprev := ihp (beforeFirst_mem hb)
    exact ⟨beforeFirst_trans hprev.1 hb, hprev.2⟩

theorem kahnIds_not_mem_of_cycle {tasks : List TaskE} {edges : List Edge}
    (hWF : WFGraph tasks edges) {v : Nat}
    (h : Relation.TransGen (EdgeRel edges) v v) : v ∉ kahnIds tasks edges := by
  intro hv
  exact beforeFirst_irrefl (kahnIds_transGen_before hWF h hv).1

theorem kahnIds_perm {tasks : List TaskE} {edges : List Edge}
    (hWF : WFGraph tasks edges) (hacyc : ¬ Cyclic edges) :
    (kahnIds tasks edges).Perm (taskIds tasks) := by
  obtain ⟨hnd, hsub, _, hcomp⟩ := kahnIds_spec hWF
  refine List.perm_of_nodup_nodup_toFinset_eq hnd hWF.2 ?_
  apply Finset.Subset.antisymm
  · intro x hx
    exact List.mem_toFinset.mpr (hsub x (List.mem_toFinset.mp hx))
  · intro x hx
    exact List.mem_toFinset.mpr (hcomp hacyc x (List.mem_toFinset.mp hx))

theorem kahnIds_length_lt_of_cyclic {tasks : List TaskE} {edges : List Edge}
    (hWF : WFGraph tasks edges) (hcyc : Cyclic edges) :
    (kahnIds tasks edges).length < tasks.length := by
  obtain ⟨v, hv⟩ := hcyc
  have hvT : v ∈ taskIds tasks := by
    rcases Relation.TransGen.head'_iff.mp hv with ⟨w, hw, _⟩
    exact (hWF.1 _ hw).1
  have hvnot : v ∉ kahnIds tasks edges := kahnIds_not_mem_of_cycle hWF hv
  obtain ⟨hnd, hsub, _, _⟩ := kahnIds_spec hWF
  have hsubF : (kahnIds tasks edges).toFinset ⊆ (taskIds tasks).toFinset.erase v := by
    intro x hx
    have hxm := List.mem_toFinset.mp hx
    refine Finset.mem_erase.mpr ⟨fun hc => hvnot (hc ▸ hxm), ?_⟩
    exact List.mem_toFinset.mpr (hsub x hxm)
  have h1 : (kahnIds tasks edges).toFinset.card = (kahnIds tasks edges).length :=
    List.toFinset_card_of_nodup hnd
  have h2 : (taskIds tasks).toFinset.card = tasks.length := by
    rw [List.toFinset_card_of_nodup hWF.2]
    exact List.length_map _ _
  have h3 := Finset.card_le_card hsubF
  have h4 : ((taskIds tasks).toFinset.erase v).card = (taskIds tasks).toFinset.card - 1 :=
    Finset.card_erase_of_mem (List.mem_toFinset.mpr hvT)
  have h5 : 0 < (taskIds tasks).toFinset.card :=
    Finset.card_pos.mpr ⟨v, List.mem_toFinset.mpr hvT⟩
  omega

theorem find?_task_of_mem_ids {tasks : List TaskE} {tid : Nat}
    (h : tid ∈ taskIds tasks) :
    ∃ t, tasks.find? (fun x => x.id == tid) = some t ∧ t.id = tid := by
  rcases hf : tasks.find? (fun x => x.id == tid) with _ | t
  · rw [List.find?_eq_none] at hf
    obtain ⟨t0, ht0, hid⟩ := List.mem_map.mp h
    exact absurd (beq_iff_eq.mpr hid) (hf t0 ht0)
  · refine ⟨t, hf, ?_⟩
    have := List.find?_some hf
    exact beq_iff_eq.mp this

theorem find?_id_self {tasks : List TaskE} (hnd : (taskIds tasks).Nodup) :
    ∀ {t : TaskE}, t ∈ tasks → tasks.find? (fun x => x.id == t.id) = some t := by
  induction tasks with
  | nil => intro t ht; cases ht
  | cons a rest ih =>
    intro t ht
    have hnd' : (taskIds rest).Nodup := (List.nodup_cons.mp hnd).2
    rcases List.mem_cons.mp ht with rfl | ht2
    · exact List.find?_cons_of_pos (p := fun x => x.id == t.id) rest (beq_self_eq_true _)
    · have hne : ¬ (a.id == t.id) = true := by
        intro hc
        have hid : a.id = t.id := beq_iff_eq.mp hc
        have : a.id ∈ taskIds rest := by
          rw [hid]
          exact List.mem_map.mpr ⟨t, ht2, rfl⟩
        exact (List.nodup_cons.mp hnd).1 this
      rw [List.find?_cons_of_neg (p := fun x => x.id == t.id) rest hne]
      exact ih hnd' ht2

theorem filterMap_find_map_id {tasks : List TaskE} :
    ∀ (l : List Nat), (∀ tid ∈ l, tid ∈ taskIds tasks) →
      (l.filterMap (fun tid => tasks.find? (fun t => t.id == tid))).map TaskE.id = l := by
  intro l
  induction l with
  | nil => intro _; simp
  | cons tid rest ih =>
    intro hsub
    obtain ⟨t, hft, hid⟩ := find?_task_of_mem_ids (hsub tid (List.mem_cons_self _ _))
    rw [List.filterMap_cons, hft]
    simp only [List.map_cons, hid]
    rw [ih (fun x hx => hsub x (List.mem_cons_of_mem _ hx))]

theorem filterMap_find_of_tasks {tasks : List TaskE} (hnd : (taskIds tasks).Nodup) :
    ((taskIds tasks).filterMap (fun tid => tasks.find? (fun t => t.id == tid))) = tasks := by
  have : ∀ (l : List TaskE), (∀ t ∈ l, tasks.find? (fun x => x.id == t.id) = some t) →
      ((l.map TaskE.id).filterMap (fun tid => tasks.find? (fun t => t.id == tid))) = l := by
    intro l
    induction l with
    | nil => intro _; simp
    | cons a rest ih =>
      intro h
      rw [List.map_cons, List.filterMap_cons, h a (List.mem_cons_self _ _)]
      rw [ih (fun t ht => h t (List.mem_cons_of_mem _ ht))]
  exact this tasks (fun t ht => find?_id_self hnd ht)

theorem topological_sort_perm {tasks : List TaskE} {edges : List Edge}
    (hWF : WFGraph tasks edges) (hacyc : ¬ Cyclic edges) :
    (topological_sort tasks edges).Perm tasks := by
  unfold topological_sort
  have hperm := (kahnIds_perm hWF hacyc).filterMap
    (fun tid => tasks.find? (fun t => t.id == tid))
  rw [show taskIds tasks = tasks.map TaskE.id from rfl] at hperm
  have heq := filterMap_find_of_tasks hWF.2
  rw [show taskIds tasks = tasks.map TaskE.id from rfl] at heq
  rw [heq] at hperm
  exact hperm

theorem topological_sort_map_id {tasks : List TaskE} {edges : List Edge}
    (hWF : WFGraph tasks edges) :
    (topological_sort tasks edges).map TaskE.id = kahnIds tasks edges := by
  unfold topological_sort
  exact filterMap_find_map_id _ (kahnIds_spec hWF).2.1

theorem topological_sort_length_iff {tasks : List TaskE} {edges : List Edge}
    (hWF : WFGraph tasks edges) :
    (topological_sort tasks edges).length = tasks.length ↔ ¬ Cyclic edges := by
  have hlen : (topological_sort tasks edges).length = (kahnIds tasks edges).length := by
    rw [← topological_sort_map_id hWF]
    exact (List.length_map _ _).symm
  constructor
  · intro h hcyc
    have := kahnIds_length_lt_of_cyclic hWF hcyc
    omega
  · intro hacyc
    rw [hlen, (kahnIds_perm hWF hacyc).length_eq]
    exact List.length_map _ _

/-! ### The allocator -/

theorem allocGo_length (first : ResourceE) (avail : List ResourceE) :
    ∀ (ts : List TaskE) (clock : Int), (allocGo first avail clock ts).length = ts.length := by
  intro ts
  induction ts with
  | nil => intro clock; rfl
  | cons t ts ih =>
    intro clock
    rw [allocGo, List.length_cons, List.length_cons, ih]

theorem allocGo_get (first : ResourceE) (avail : List ResourceE) :
    ∀ (ts : List TaskE) (clock : Int) (i : Nat)
      (h1 : i < (allocGo first avail clock ts).length) (h2 : i < ts.length),
      (allocGo first avail clock ts).get ⟨i, h1⟩ =
        ⟨(ts.get ⟨i, h2⟩).id,
         (chooseResource first avail (ts.get ⟨i, h2⟩).required_skills).id,
         clock + ((ts.take i).map TaskE.estimated_duration).sum,
         clock + ((ts.take (i + 1)).map TaskE.estimated_duration).sum⟩ := by
  intro ts
  induction ts with
  | nil =>
    intro clock i h1 h2
    cases h2
  | cons t ts ih =>
    intro clock i h1 h2
    cases i with
    | zero =>
      show (⟨t.id, _, clock, clock + t.estimated_duration⟩ : AllocE) = _
      simp [List.take_succ_cons]
    | succ i =>
      have h1' : i < (allocGo first avail (clock + t.estimated_duration) ts).length := by
        have := allocGo_length first avail (t :: ts) clock
        rw [allocGo_length first avail ts]
        rw [this] at h1
        simpa using h1
      have h2' : i < ts.length := by simpa using h2
      show (allocGo first avail (clock + t.estimated_duration) ts).get ⟨i, h1'⟩ = _
      rw [ih (clock + t.estimated_duration) i h1' h2']
      have htake : ∀ (k : Nat), ((t :: ts).take (k + 1)).map TaskE.estimated_duration =
          t.estimated_duration :: (ts.take k).map TaskE.estimated_duration := by
        intro k
        rw [List.take_succ_cons, List.map_cons]
      have hsum : ∀ (k : Nat),
          clock + (((t :: ts).take (k + 1)).map TaskE.estimated_duration).sum =
          clock + t.estimated_duration + ((ts.take k).map TaskE.estimated_duration).sum := by
        intro k
        rw [htake k, List.sum_cons]
        ring
      have hget : (t :: ts).get ⟨i + 1, h2⟩ = ts.get ⟨i, h2'⟩ := rfl
      rw [hget, hsum i, hsum (i + 1)]

theorem allocate_resources_ok_shape {tasks : List TaskE} {edges : List Edge}
    {resources : List ResourceE} {clock : Int} {l : List AllocE}
    (h : allocate_resources tasks edges resources clock = Except.ok l) :
    ∃ r0 rs, availResources resources = r0 :: rs ∧
      l = allocGo r0 (r0 :: rs) clock (topological_sort tasks edges) := by
  unfold allocate_resources at h
  rcases havail : availResources resources with _ | ⟨r0, rs⟩
  · rw [havail] at h
    cases h
  · rw [havail] at h
    refine ⟨r0, rs, rfl, ?_⟩
    cases h
    rfl

theorem chooseResource_skill {first : ResourceE} {avail : List ResourceE} {req : List String}
    (h : ∃ r ∈ avail, r.rtype = ResourceType.employee ∧ ∀ s ∈ req, s ∈ r.skills) :
    ∀ s ∈ req, s ∈ (chooseResource first avail req).skills := by
  obtain ⟨r, hr, hemp, hsk⟩ := h
  rcases hf : avail.find?
      (fun r => r.rtype == ResourceType.employee && req.all (fun s => r.skills.contains s))
    with _ | r'
  · rw [List.find?_eq_none] at hf
    exfalso
    refine hf r hr ?_
    rw [Bool.and_eq_true]
    constructor
    · rw [hemp]
      rfl
    · rw [List.all_eq_true]
      intro s hs
      rw [List.elem_iff]
      exact hsk s hs
  · have hr'p := List.find?_some hf
    rw [Bool.and_eq_true] at hr'p
    have hall := hr'p.2
    rw [List.all_eq_true] at hall
    unfold chooseResource
    rw [hf]
    intro s hs
    have := hall s hs
    rw [List.elem_iff] at this
    exact this

/-! ### Small helpers for claims and witnesses -/

theorem acyclic_of_rank {edges : List Edge} (f : Nat → Nat)
    (h : ∀ e ∈ edges, f e.1 < f e.2) : ¬ Cyclic edges := by
  rintro ⟨v, hv⟩
  have hmono : ∀ {a b : Nat}, Relation.TransGen (EdgeRel edges) a b → f a < f b := by
    intro a b h'
    induction h' with
    | single e => exact h _ e
    | tail _ e ihp => exact lt_trans ihp (h _ e)
  exact lt_irrefl _ (hmono hv)

theorem take_map_sum_succ :
    ∀ (ts : List TaskE) (i : Nat) (h : i < ts.length),
      ((ts.take (i + 1)).map TaskE.estimated_duration).sum =
        ((ts.take i).map TaskE.estimated_duration).sum +
          (ts.get ⟨i, h⟩).estimated_duration := by
  intro ts
  induction ts with
  | nil => intro i h; cases h
  | cons t ts ih =>
    intro i h
    cases i with
    | zero => simp
    | succ i =>
      have h' : i < ts.length := by simpa using h
      rw [List.take_succ_cons, List.take_succ_cons, List.map_cons, List.map_cons,
        List.sum_cons, List.sum_cons, ih i h']
      have : (t :: ts).get ⟨i + 1, h⟩ = ts.get ⟨i, h'⟩ := rfl
      rw [this]
      ring

/-! ### The claims -/

/-- Claim C1: for every acyclic task graph of one project, `topological_sort`
returns a permutation of all of the project's tasks such that for every
dependency edge `(p, s)`, task `p` appears strictly before task `s` in the
returned list. -/
theorem claim_C1_topological_sort_correct {tasks : List TaskE} {edges : List Edge}
    (hWF : WFGraph tasks edges) (hacyc : ¬ Cyclic edges) :
    (topological_sort tasks edges).Perm tasks ∧
    ∀ e ∈ edges, appears_before ((topological_sort tasks edges).map TaskE.id) e.1 e.2 := by
  refine ⟨topological_sort_perm hWF hacyc, ?_⟩
  intro e he
  rw [topological_sort_map_id hWF]
  have h2T : e.2 ∈ taskIds tasks := (hWF.1 e he).2
  have h2m : e.2 ∈ kahnIds tasks edges := (kahnIds_spec hWF).2.2.2 hacyc e.2 h2T
  have hb := (kahnIds_spec hWF).2.2.1 e he h2m
  exact beforeFirst_appears hb h2m

theorem claim_C1_witness :
    (WFGraph [⟨1, 5, 240, []⟩, ⟨2, 4, 480, []⟩] [(1, 2)] ∧
      ¬ Cyclic [(1, 2)]) ∧
    ((topological_sort [⟨1, 5, 240, []⟩, ⟨2, 4, 480, []⟩] [(1, 2)]).Perm
        [⟨1, 5, 240, []⟩, ⟨2, 4, 480, []⟩] ∧
      ∀ e ∈ [((1 : Nat), (2 : Nat))], appears_before
        ((topological_sort [⟨1, 5, 240, []⟩, ⟨2, 4, 480, []⟩] [(1, 2)]).map TaskE.id)
        e.1 e.2) :=
  ⟨⟨⟨by decide, by decide⟩, acyclic_of_rank id (by decide)⟩,
    claim_C1_topological_sort_correct ⟨by decide, by decide⟩ (acyclic_of_rank id (by decide))⟩

/-- Claim C2: for every task graph of one project, `has_cycle` returns
`true` iff the project's dependency edges contain a directed cycle; in
particular it returns `false` on every graph with no edges.  (The
embedding is a total function, so no exception is possible.) -/
theorem claim_C2_has_cycle_iff {tasks : List TaskE} {edges : List Edge}
    (hWF : WFGraph tasks edges) :
    (has_cycle tasks edges = true ↔ Cyclic edges) ∧
    (edges = [] → has_cycle tasks edges = false) := by
  refine ⟨has_cycle_iff_cyclic hWF, ?_⟩
  intro h
  subst h
  have hnc : ¬ Cyclic ([] : List Edge) := by
    rintro ⟨v, hv⟩
    rcases Relation.TransGen.head'_iff.mp hv with ⟨w, hw, _⟩
    cases hw
  cases h2 : has_cycle tasks [] with
  | true => exact absurd (has_cycle_true_cyclic h2) hnc
  | false => rfl

theorem claim_C2_witness :
    WFGraph [⟨1, 0, 1, []⟩, ⟨2, 0, 1, []⟩] [(1, 2), (2, 1)] ∧
    ((has_cycle [⟨1, 0, 1, []⟩, ⟨2, 0, 1, []⟩] [(1, 2), (2, 1)] = true ↔
        Cyclic [(1, 2), (2, 1)]) ∧
      ([(1, 2), (2, 1)] = ([] : List Edge) →
        has_cycle [⟨1, 0, 1, []⟩, ⟨2, 0, 1, []⟩] [(1, 2), (2, 1)] = false)) :=
  ⟨⟨by decide, by decide⟩, claim_C2_has_cycle_iff ⟨by decide, by decide⟩⟩

/-- Claim C3: every assignment produced by the allocator satisfies
`scheduled_end - scheduled_start = estimated_duration` of the task at the
same position of the ordered task list, and each assignment ends no later
than the next one starts. -/
theorem claim_C3_allocation_durations {tasks : List TaskE} {edges : List Edge}
    {resources : List ResourceE} {clock : Int} :
    ∀ l, allocate_resources tasks edges resources clock = Except.ok l →
      (∀ (i : Nat) (h1 : i < l.length) (h2 : i < (topological_sort tasks edges).length),
        (l.get ⟨i, h1⟩).scheduled_end - (l.get ⟨i, h1⟩).scheduled_start =
          ((topological_sort tasks edges).get ⟨i, h2⟩).estimated_duration) ∧
      (∀ (i : Nat) (h1 : i + 1 < l.length) (h0 : i < l.length),
        (l.get ⟨i, h0⟩).scheduled_end ≤ (l.get ⟨i+1, h1⟩).scheduled_start) := by
  intro l h
  obtain ⟨r0, rs, _, hl⟩ := allocate_resources_ok_shape h
  subst hl
  constructor
  · intro i h1 h2
    rw [allocGo_get r0 (r0 :: rs) (topological_sort tasks edges) clock i h1 h2]
    show clock + ((((topological_sort tasks edges).take (i + 1)).map
        TaskE.estimated_duration).sum) -
      (clock + (((topological_sort tasks edges).take i).map TaskE.estimated_duration).sum) = _
    rw [take_map_sum_succ (topological_sort tasks edges) i h2]
    ring
  · intro i h1 h0
    have hlen := allocGo_length r0 (r0 :: rs) (topological_sort tasks edges) clock
    have h2 : i < (topological_sort tasks edges).length := by omega
    have h2' : i + 1 < (topological_sort tasks edges).length := by omega
    rw [allocGo_get r0 (r0 :: rs) (topological_sort tasks edges) clock i h0 h2,
      allocGo_get r0 (r0 :: rs) (topological_sort tasks edges) clock (i + 1) h1 h2']

theorem claim_C3_witness :
    ((∀ (i : Nat) (h1 : i < ([⟨1, 7, 0, 240⟩, ⟨2, 7, 240, 720⟩] : List AllocE).length)
        (h2 : i < (topological_sort [⟨1, 5, 240, []⟩, ⟨2, 4, 480, []⟩] [(1, 2)]).length),
        (([⟨1, 7, 0, 240⟩, ⟨2, 7, 240, 720⟩] : List AllocE).get ⟨i, h1⟩).scheduled_end -
            (([⟨1, 7, 0, 240⟩, ⟨2, 7, 240, 720⟩] : List AllocE).get ⟨i, h1⟩).scheduled_start =
          ((topological_sort [⟨1, 5, 240, []⟩, ⟨2, 4, 480, []⟩] [(1, 2)]).get
            ⟨i, h2⟩).estimated_duration) ∧
      (∀ (i : Nat) (h1 : i + 1 < ([⟨1, 7, 0, 240⟩, ⟨2, 7, 240, 720⟩] : List AllocE).length)
        (h0 : i < ([⟨1, 7, 0, 240⟩, ⟨2, 7, 240, 720⟩] : List AllocE).length),
        (([⟨1, 7, 0, 240⟩, ⟨2, 7, 240, 720⟩] : List AllocE).get ⟨i, h0⟩).scheduled_end ≤
          (([⟨1, 7, 0, 240⟩, ⟨2, 7, 240, 720⟩] : List AllocE).get ⟨i+1, h1⟩).scheduled_start)) :=
  @claim_C3_allocation_durations [⟨1, 5, 240, []⟩, ⟨2, 4, 480, []⟩] [(1, 2)]
    [⟨7, ResourceType.employee, [], true⟩] 0 [⟨1, 7, 0, 240⟩, ⟨2, 7, 240, 720⟩] rfl

/-- Claim C4 (code bug): `create_dependency` commits the new edge before
running the cycle check, so when the check fires the rollback is a no-op:
the call reports the "creates a cycle" error but the cyclic edge stays in
the stored edge list, which is not restored to its pre-insertion state. -/
theorem claim_C4_commit_bug :
    (create_dependency [⟨1, 3, 60, []⟩, ⟨2, 3, 60, []⟩] [(1, 2)] 2 1).1 =
      Except.error "This dependency creates a cycle" ∧
    (create_dependency [⟨1, 3, 60, []⟩, ⟨2, 3, 60, []⟩] [(1, 2)] 2 1).2 = [(1, 2), (2, 1)] ∧
    [((1 : Nat), (2 : Nat)), (2, 1)] ≠ [(1, 2)] :=
  ⟨rfl, rfl, by decide⟩

/-- Claim C5: on a cyclic project graph the `auto_allocate` endpoint
reports an explicit error instead of a partial list; the length of the
topological sort equals the task count iff the graph is acyclic; and any
list `auto_allocate` actually returns has exactly one assignment per
task, never a short one. -/
theorem claim_C5_no_partial_result {tasks : List TaskE} {edges : List Edge}
    {resources : List ResourceE} {clock : Int} (hWF : WFGraph tasks edges) :
    (Cyclic edges → auto_allocate tasks edges resources clock =
      Except.error "Cannot allocate: project has circular dependencies") ∧
    ((topological_sort tasks edges).length = tasks.length ↔ ¬ Cyclic edges) ∧
    (∀ l, auto_allocate tasks edges resources clock = Except.ok l →
      l.length = tasks.length) := by
  refine ⟨?_, topological_sort_length_iff hWF, ?_⟩
  · intro hcyc
    unfold auto_allocate
    rw [if_pos ((has_cycle_iff_cyclic hWF).mpr hcyc)]
  · intro l h
    unfold auto_allocate at h
    cases hb : has_cycle tasks edges with
    | true => rw [if_pos hb] at h; cases h
    | false =>
      rw [if_neg (by rw [hb]; exact Bool.false_ne_true)] at h
      obtain ⟨r0, rs, _, hl⟩ := allocate_resources_ok_shape h
      subst hl
      rw [allocGo_length]
      exact (topological_sort_length_iff hWF).mpr (has_cycle_false_acyclic hWF hb)

theorem claim_C5_witness :
    WFGraph [⟨1, 0, 60, []⟩] [(1, 1)] ∧
    ((Cyclic [(1, 1)] → auto_allocate [⟨1, 0, 60, []⟩] [(1, 1)]
        [⟨7, ResourceType.employee, [], true⟩] 0 =
        Except.error "Cannot allocate: project has circular dependencies") ∧
      ((topological_sort [⟨1, 0, 60, []⟩] [(1, 1)]).length = 1 ↔ ¬ Cyclic [(1, 1)]) ∧
      (∀ l, auto_allocate [⟨1, 0, 60, []⟩] [(1, 1)]
          [⟨7, ResourceType.employee, [], true⟩] 0 = Except.ok l → l.length = 1)) :=
  ⟨⟨by decide, by decide⟩, claim_C5_no_partial_result ⟨by decide, by decide⟩⟩

/-- Claim C6 (amended): if at least one available *employee* resource has
a skill set containing every required skill, the resource the allocator
chooses for the task has a skill set containing every required skill.
(The unamended claim, quantifying over all available resources, is
refuted by `claim_C6_counterexample`.) -/
theorem claim_C6_amended_skill_match {first : ResourceE} {avail : List ResourceE}
    {req : List String}
    (h : ∃ r ∈ avail, r.rtype = ResourceType.employee ∧ ∀ s ∈ req, s ∈ r.skills) :
    ∀ s ∈ req, s ∈ (chooseResource first avail req).skills :=
  chooseResource_skill h

theorem claim_C6_witness :
    (∃ r ∈ [(⟨3, ResourceType.employee, ["x"], true⟩ : ResourceE)],
      r.rtype = ResourceType.employee ∧ ∀ s ∈ ["x"], s ∈ r.skills) ∧
    (∀ s ∈ ["x"], s ∈ (chooseResource ⟨3, ResourceType.employee, ["x"], true⟩
      [⟨3, ResourceType.employee, ["x"], true⟩] ["x"]).skills) :=
  ⟨by decide, claim_C6_amended_skill_match (by decide)⟩

/-- Claim C6 counterexample: with an unskilled available employee listed
first and an available equipment resource that has the required skill,
some available resource's skill set contains the required skills, yet the
allocator assigns the task to the unskilled employee (resource id 1):
skill matching only scans `EMPLOYEE` resources and the fallback is
`resources[0]`. -/
theorem claim_C6_counterexample :
    (∃ r ∈ availResources [⟨1, ResourceType.employee, [], true⟩,
        ⟨2, ResourceType.equipment, ["x"], true⟩],
      ∀ s ∈ ["x"], s ∈ r.skills) ∧
    allocate_resources [⟨1, 3, 60, ["x"]⟩] []
        [⟨1, ResourceType.employee, [], true⟩, ⟨2, ResourceType.equipment, ["x"], true⟩] 0 =
      Except.ok [⟨1, 1, 0, 60⟩] ∧
    ¬ (∀ s ∈ ["x"], s ∈ (⟨1, ResourceType.employee, [], true⟩ : ResourceE).skills) :=
  ⟨by decide, rfl, by decide⟩

/-- Claim C7: an allocation call whose available-resource set is empty
fails with the "No available resources" error; the error carries no
assignment list, so zero assignments are produced. -/
theorem claim_C7_empty_resources {tasks : List TaskE} {edges : List Edge}
    {resources : List ResourceE} {clock : Int}
    (h : availResources resources = []) :
    allocate_resources tasks edges resources clock =
      Except.error "No available resources" := by
  unfold allocate_resources
  rw [h]

theorem claim_C7_witness :
    availResources [(⟨1, ResourceType.employee, ["x"], false⟩ : ResourceE)] = [] ∧
    allocate_resources [⟨1, 3, 60, []⟩] [] [⟨1, ResourceType.employee, ["x"], false⟩] 0 =
      Except.error "No available resources" :=
  ⟨rfl, claim_C7_empty_resources rfl⟩

/-- Claim C8: at any step of the Kahn loop at which the queue is exactly
the ready set (which the loop invariant guarantees), the task popped and
appended next by `kahnLoop` — the head of the priority-sorted queue — has
the highest priority among all ready tasks. -/
theorem claim_C8_priority_pop {tasks : List TaskE} {edges : List Edge}
    {queue q' acc : List Nat} {indeg : Nat → Int} {c : Nat}
    (hready : ∀ v ∈ taskIds tasks, v ∉ acc → (v ∈ queue ↔ indeg v = 0))
    (hin : ∀ v, indeg v = remInDeg edges acc v)
    (hpop : sortQueue (prioOf tasks) queue = c :: q') :
    (∀ v, isReady tasks edges acc v → prioOf tasks v ≤ prioOf tasks c) ∧
    ∀ fuel, kahnLoop (graphSucc tasks edges) (prioOf tasks) (fuel + 1) queue indeg acc =
      kahnLoop (graphSucc tasks edges) (prioOf tasks) fuel
        (stepNeighbors (graphSucc tasks edges c) q' indeg).1
        (stepNeighbors (graphSucc tasks edges c) q' indeg).2 (acc ++ [c]) := by
  constructor
  · rintro v ⟨hvT, hva, hvz⟩
    have hvq : v ∈ queue := (hready v hvT hva).mpr (by rw [hin v]; exact hvz)
    exact sortQueue_head_max hpop v hvq
  · intro fuel
    rw [kahnLoop, hpop]

theorem claim_C8_witness :
    (sortQueue (prioOf [⟨1, 1, 10, []⟩, ⟨2, 9, 10, []⟩]) [1, 2] = [2, 1]) ∧
    ((∀ v, isReady [⟨1, 1, 10, []⟩, ⟨2, 9, 10, []⟩] [] [] v →
        prioOf [⟨1, 1, 10, []⟩, ⟨2, 9, 10, []⟩] v ≤
          prioOf [⟨1, 1, 10, []⟩, ⟨2, 9, 10, []⟩] 2) ∧
      ∀ fuel, kahnLoop (graphSucc [⟨1, 1, 10, []⟩, ⟨2, 9, 10, []⟩] [])
          (prioOf [⟨1, 1, 10, []⟩, ⟨2, 9, 10, []⟩]) (fuel + 1) [1, 2] (fun _ => 0) [] =
        kahnLoop (graphSucc [⟨1, 1, 10, []⟩, ⟨2, 9, 10, []⟩] [])
          (prioOf [⟨1, 1, 10, []⟩, ⟨2, 9, 10, []⟩]) fuel
          (stepNeighbors (graphSucc [⟨1, 1, 10, []⟩, ⟨2, 9, 10, []⟩] [] 2) [1]
            (fun _ => 0)).1
          (stepNeighbors (graphSucc [⟨1, 1, 10, []⟩, ⟨2, 9, 10, []⟩] [] 2) [1]
            (fun _ => 0)).2 ([] ++ [2])) :=
  ⟨by decide, claim_C8_priority_pop (by decide) (fun v => rfl) (by decide)⟩

/-- Claim C9: `has_cycle` reads its inputs and returns a boolean without
mutating them, so any sequence of repeated calls on the same unmodified
task graph yields the same result as a single call. -/
theorem claim_C9_idempotent (tasks : List TaskE) (edges : List Edge) :
    ∀ (n : Nat) (b : Bool),
      b ∈ (List.range n).map (fun _ => has_cycle tasks edges) →
      b = has_cycle tasks edges := by
  intro n b hb
  rcases List.mem_map.mp hb with ⟨_, _, heq⟩
  exact heq.symm

theorem claim_C9_witness :
    (true ∈ (List.range 2).map
      (fun _ => has_cycle [⟨1, 0, 1, []⟩, ⟨2, 0, 1, []⟩] [(1, 2), (2, 1)])) ∧
    true = has_cycle [⟨1, 0, 1, []⟩, ⟨2, 0, 1, []⟩] [(1, 2), (2, 1)] :=
  ⟨by decide, claim_C9_idempotent _ _ 2 true (by decide)⟩

/-- Claim C10: the produced timeline is exactly contiguous: as many
assignments as ordered tasks, pairing task ids positionally, the first
assignment starting at the initial clock value and each later assignment
starting exactly when the previous one ends. -/
theorem claim_C10_contiguous_timeline {tasks : List TaskE} {edges : List Edge}
    {resources : List ResourceE} {clock : Int} :
    ∀ l, allocate_resources tasks edges resources clock = Except.ok l →
      l.length = (topological_sort tasks edges).length ∧
      (∀ (i : Nat) (h1 : i < l.length) (h2 : i < (topological_sort tasks edges).length),
        (l.get ⟨i, h1⟩).task_id = ((topological_sort tasks edges).get ⟨i, h2⟩).id) ∧
      (∀ h0 : 0 < l.length, (l.get ⟨0, h0⟩).scheduled_start = clock) ∧
      (∀ (i : Nat) (h1 : i + 1 < l.length) (h0 : i < l.length),
        (l.get ⟨i+1, h1⟩).scheduled_start = (l.get ⟨i, h0⟩).scheduled_end) := by
  intro l h
  obtain ⟨r0, rs, _, hl⟩ := allocate_resources_ok_shape h
  subst hl
  have hlen := allocGo_length r0 (r0 :: rs) (topological_sort tasks edges) clock
  refine ⟨hlen, ?_, ?_, ?_⟩
  · intro i h1 h2
    rw [allocGo_get r0 (r0 :: rs) (topological_sort tasks edges) clock i h1 h2]
  · intro h0
    have h2 : 0 < (topological_sort tasks edges).length := by omega
    rw [allocGo_get r0 (r0 :: rs) (topological_sort tasks edges) clock 0 h0 h2]
    show clock + (([] : List Int)).sum = clock
    simp
  · intro i h1 h0
    have h2 : i < (topological_sort tasks edges).length := by omega
    have h2' : i + 1 < (topological_sort tasks edges).length := by omega
    rw [allocGo_get r0 (r0 :: rs) (topological_sort tasks edges) clock i h0 h2,
      allocGo_get r0 (r0 :: rs) (topological_sort tasks edges) clock (i + 1) h1 h2']

theorem claim_C10_witness :
    ([⟨1, 7, 0, 240⟩, ⟨2, 7, 240, 720⟩] : List AllocE).length =
        (topological_sort [⟨1, 5, 240, []⟩, ⟨2, 4, 480, []⟩] [(1, 2)]).length ∧
    (∀ (i : Nat) (h1 : i < ([⟨1, 7, 0, 240⟩, ⟨2, 7, 240, 720⟩] : List AllocE).length)
      (h2 : i < (topological_sort [⟨1, 5, 240, []⟩, ⟨2, 4, 480, []⟩] [(1, 2)]).length),
      (([⟨1, 7, 0, 240⟩, ⟨2, 7, 240, 720⟩] : List AllocE).get ⟨i, h1⟩).task_id =
        ((topological_sort [⟨1, 5, 240, []⟩, ⟨2, 4, 480, []⟩] [(1, 2)]).get ⟨i, h2⟩).id) ∧
    (∀ h0 : 0 < ([⟨1, 7, 0, 240⟩, ⟨2, 7, 240, 720⟩] : List AllocE).length,
      (([⟨1, 7, 0, 240⟩, ⟨2, 7, 240, 720⟩] : List AllocE).get ⟨0, h0⟩).scheduled_start = 0) ∧
    (∀ (i : Nat) (h1 : i + 1 < ([⟨1, 7, 0, 240⟩, ⟨2, 7, 240, 720⟩] : List AllocE).length)
      (h0 : i < ([⟨1, 7, 0, 240⟩, ⟨2, 7, 240, 720⟩] : List AllocE).length),
      (([⟨1, 7, 0, 240⟩, ⟨2, 7, 240, 720⟩] : List AllocE).get ⟨i+1, h1⟩).scheduled_start =
        (([⟨1, 7, 0, 240⟩, ⟨2, 7, 240, 720⟩] : List AllocE).get ⟨i, h0⟩).scheduled_end) :=
  @claim_C10_contiguous_timeline [⟨1, 5, 240, []⟩, ⟨2, 4, 480, []⟩] [(1, 2)]
    [⟨7, ResourceType.employee, [], true⟩] 0 [⟨1, 7, 0, 240⟩, ⟨2, 7, 240, 720⟩] rfl

end RA
